import Mathlib

/-!
The program `evolution.go`, a generational evolutionary optimiser.

A shallow embedding of `src/evolution.go` and machine-checked statements about it.

Conventions of the embedding

* Go `int` is the 64-bit signed integer: values are `Int`, and every arithmetic
  result that Go would wrap is passed through `wrapInt`.
* Go `float32` is IEEE-754 binary32 with round-to-nearest, ties-to-even.  A finite
  value is stored as a sign and a natural number `k` standing for `k * 2^-149`
  (every finite binary32 value is such a multiple).
* A run-time panic is an `Except.error` value of type `Fault`.
* A float-to-int conversion of a value that `int` cannot hold succeeds in Go with a
  result left to the implementation.  That result is the parameter `Platform`; the
  statements are made for every platform, and the worked examples are evaluated on
  `minIntPlatform`.
* `math/rand` is an explicit script of raw draws; `rand.Intn n` reduces the next raw
  draw modulo `n`, so every outcome in `[0, n)` is produced by some script.
* `sort.Sort` is a parameter `S : SortAlg`: any function that returns a permutation
  of its input ordered by the supplied `Less`.  The order of ties is whatever `S`
  does.
* A population holds organisms; a nil interface value is not an organism.  The nil
  result of `best()` is `none`.
-/

set_option maxRecDepth 4000
set_option exponentiation.threshold 1000

namespace Evolution

/-! ## Faults -/

/-- Ways in which a call stops without a result. -/
inductive Fault where
  /-- The explicit `panic` of `crossover`: operands of different length. -/
  | lengthMismatch
  /-- The panic of `rand.Intn n` for `n <= 0`. -/
  | intnArg
  /-- A method call on the nil `Organism`. -/
  | nilDeref
  /-- An index or a slice bound outside its range. -/
  | outOfRange
  deriving DecidableEq

deriving instance DecidableEq for Except

/-! ## Machine integers -/

/-- Two's-complement wrap-around of a 64-bit `int`. -/
def wrapInt (x : Int) : Int := (x + 2 ^ 63) % 2 ^ 64 - 2 ^ 63

/-! ## binary32 arithmetic -/

/-- Fuelled count of binary digits. -/
def bitsAux : Nat → Nat → Nat
  | 0, _ => 0
  | fuel + 1, n => if n = 0 then 0 else bitsAux fuel (n / 2) + 1

/-- Number of binary digits of `n` (`0` for `n = 0`). -/
def bits (n : Nat) : Nat := bitsAux n n

/-- The integer nearest to `n / 2^s`, a tie going to the even neighbour. -/
def roundHalfEven (n s : Nat) : Nat :=
  let q := n / 2 ^ s
  let r := n % 2 ^ s
  if 2 * r < 2 ^ s then q
  else if 2 * r > 2 ^ s then q + 1
  else if q % 2 = 0 then q else q + 1

/-- Rounds the non-negative real `num / 2^scale` to binary32 precision (24
significant bits, no digit below `2^-149`) and returns the result in units of
`2^-149`.  The exponent is not bounded above here. -/
def roundScaled (num scale : Nat) : Nat :=
  let s := max (bits num - 24) (scale - 149)
  roundHalfEven num s * 2 ^ (s + 149 - scale)

/-- A `float32` value: `finite neg k` is `(-1)^neg * k * 2^-149`. -/
inductive F32 where
  | finite (neg : Bool) (k : Nat)
  | inf (neg : Bool)
  | nan
  deriving DecidableEq

/-- The implementation-dependent part of the conversion `int(x)`: what it yields for
an `x` that is an infinity, a NaN, or a finite value whose integer part `int` cannot
hold.  Go lets the conversion succeed with some `int` in that case; the value given
here is reduced to 64 bits by `wrapInt` where it is used. -/
class Platform where
  /-- The result of `int(x)` where the language does not fix it. -/
  outOfRange : F32 → Int

/-- A platform whose conversion yields the most negative `int` wherever the result
is left to the implementation, as the x86-64 conversion instruction does. -/
instance minIntPlatform : Platform := ⟨fun _ => -(2 ^ 63)⟩

namespace F32

/-- The magnitudes `k` (in units of `2^-149`) that binary32 can hold: at most 24
significant bits and below `2^128`. -/
def Representable (k : Nat) : Prop := k % 2 ^ (bits k - 24) = 0 ∧ k < 2 ^ 277

instance (k : Nat) : Decidable (Representable k) := by
  unfold Representable; infer_instance

/-- The binary32 value nearest to `(-1)^neg * num / 2^scale`; magnitudes that round
to `2^128` or more become an infinity. -/
def ofScaled (neg : Bool) (num scale : Nat) : F32 :=
  let k := roundScaled num scale
  if 2 ^ 277 ≤ k then inf neg else finite neg k

/-- The conversion `float32(n)` of an `int`. -/
def ofInt (n : Int) : F32 := ofScaled (decide (n < 0)) n.natAbs 0

/-- The product `x * y` of two `float32` values. -/
def mul : F32 → F32 → F32
  | nan, _ => nan
  | _, nan => nan
  | inf s, inf t => inf (xor s t)
  | inf s, finite t k => if k = 0 then nan else inf (xor s t)
  | finite s k, inf t => if k = 0 then nan else inf (xor s t)
  | finite s a, finite t b => ofScaled (xor s t) (a * b) 298

/-- The conversion `int(x)`: the fraction is discarded (truncation towards zero).
When the truncated value is not an `int`, or `x` is an infinity or a NaN, the
conversion still succeeds, with the `int` the platform yields.  The conversion
never panics; its result is in `Except` so that it chains with the operations that
can. -/
def toInt [Platform] : F32 → Except Fault Int
  | finite neg k =>
    let t : Int := ((k / 2 ^ 149 : Nat) : Int)
    let v := if neg then -t else t
    if -(2 ^ 63) ≤ v ∧ v < 2 ^ 63 then .ok v
    else .ok (wrapInt (Platform.outOfRange (finite neg k)))
  | x => .ok (wrapInt (Platform.outOfRange x))

/-- The rates the specification allows: `0 <= r <= 1` (negative zero included). -/
def InUnit : F32 → Prop
  | finite neg k => k ≤ 2 ^ 149 ∧ (neg = false ∨ k = 0)
  | _ => False

instance (r : F32) : Decidable (InUnit r) := by
  cases r <;> unfold InUnit <;> infer_instance

end F32

/-! ## Organisms and populations -/

/-- Go `type IntOrganism []int`: the genes of a bit string. -/
abbrev IntOrganism := List Int

/-- Go `type Organism interface`; `IntOrganism` is its only implementation. -/
abbrev Organism := IntOrganism

/-- Go `type Organisms []Organism`. -/
abbrev Organisms := List Organism

/-- Go `type Population struct`. -/
structure Population where
  organisms : Organisms
  birthRate : F32
  deathRate : F32
  deriving DecidableEq

/-- Go `func (o IntOrganism) value() int`. -/
def IntOrganism.value (o : IntOrganism) : Int :=
  o.foldl (fun sum val => wrapInt (sum + val)) 0

/-- Go `func (o IntOrganism) mutate() Organism`. -/
def IntOrganism.mutate (o : IntOrganism) : Organism := o

/-- Go `func (o Organisms) Less(i, j int) bool`, on the two elements compared. -/
def Organisms.Less (oi oj : Organism) : Bool :=
  decide (IntOrganism.value oi < IntOrganism.value oj)

/-- Go `func (r ReverseSort) Less(i, j int) bool`, on the two elements compared. -/
def ReverseSort.Less (oi oj : Organism) : Bool := Organisms.Less oj oi

/-- Go `func (p Population) value() int`. -/
def Population.value (p : Population) : Int :=
  p.organisms.foldl (fun sum org => wrapInt (sum + IntOrganism.value org)) 0

/-- Go `func (p Population) best() Organism`; `none` is the nil result. -/
def Population.best (p : Population) : Option Organism :=
  match p.organisms with
  | [] => none
  | first :: rest =>
    some (rest.foldl
      (fun bestOrg org =>
        if IntOrganism.value org > IntOrganism.value bestOrg then org else bestOrg)
      first)

/-- Go `func (p Population) numParents() int`. -/
def Population.numParents [Platform] (p : Population) : Except Fault Int := do
  let numBirths ← F32.toInt (F32.mul (F32.ofInt p.organisms.length) p.birthRate)
  let numParents := wrapInt (numBirths * 2)
  if numParents > p.organisms.length then
    let numParents : Int := p.organisms.length
    -- Ensure numParents is even.
    let numParents := Int.tdiv numParents 2
    let numParents := wrapInt (numParents * 2)
    pure numParents
  else
    pure numParents

/-- Go `func (p Population) numToKill() int`. -/
def Population.numToKill [Platform] (p : Population) : Except Fault Int := do
  let numToKill ← F32.toInt (F32.mul (F32.ofInt p.organisms.length) p.deathRate)
  if numToKill > p.organisms.length then
    pure (p.organisms.length : Int)
  else
    pure numToKill

/-! ## The random source -/

/-- The process-wide source of `math/rand`: the raw draws it will hand out, in
order.  A script that is used up keeps handing out `0`. -/
structure Rng where
  draws : List Nat
  deriving DecidableEq

/-- Go `rand.Intn(n)`: panics for `n <= 0`, otherwise a value in `[0, n)`. -/
def Rng.Intn (g : Rng) (n : Int) : Except Fault (Int × Rng) :=
  if n ≤ 0 then .error .intnArg
  else .ok (((g.draws.headD 0 % n.toNat : Nat) : Int), ⟨g.draws.tail⟩)

/-! ## Crossover -/

/-- Go `func (o IntOrganism) crossover(other Organism) Organism`. -/
def IntOrganism.crossover (o : IntOrganism) (other : Organism) (g : Rng) :
    Except Fault (Organism × Rng) := do
  let o2 : IntOrganism := other
  if o.length ≠ o2.length then
    throw Fault.lengthMismatch
  let (i, g) ← Rng.Intn g o.length
  let child : IntOrganism := []
  let child := child ++ o.take i.toNat
  let child := child ++ o2.drop i.toNat
  pure (child, g)

/-! ## Sorting -/

/-- What `sort.Sort` asks of `Less`: a strict weak ordering. -/
def StrictWeak (less : Organism → Organism → Bool) : Prop :=
  (∀ a b, less a b = true → less b a = false) ∧
  (∀ a b c, less b a = false → less c b = false → less c a = false)

/-- The contract of `sort.Sort`: the data is permuted, and afterwards no element is
`Less` than one that stands before it.  Nothing is promised about ties. -/
structure SortAlg where
  sort : (Organism → Organism → Bool) → Organisms → Organisms
  perm : ∀ less data, List.Perm (sort less data) data
  sorted : ∀ less data, StrictWeak less →
    List.Pairwise (fun x y => less y x = false) (sort less data)

/-! ## Selection and culling -/

/-- The exchange `s[i], s[j] = s[j], s[i]`. -/
def swapAt (s : Organisms) (i j : Nat) : Except Fault Organisms :=
  match s[i]?, s[j]? with
  | some a, some b => .ok ((s.set i b).set j a)
  | _, _ => .error .outOfRange

/-- The shuffle loop of `selectParents`, `n` iterations from index `i` on. -/
def shuffleLoop : Nat → Nat → Organisms → Rng → Except Fault (Organisms × Rng)
  | 0, _, mostFit, g => pure (mostFit, g)
  | n + 1, i, mostFit, g => do
    let (j, g) ← Rng.Intn g ((i : Int) + 1)
    let mostFit ← swapAt mostFit i j.toNat
    shuffleLoop n (i + 1) mostFit g

/-- Go `func (p Population) selectParents() Organisms`.  The receiver is a copy but
shares its backing array with the caller, so the reordered storage is returned
next to the parents. -/
def Population.selectParents [Platform] (S : SortAlg) (p : Population) (g : Rng) :
    Except Fault (Organisms × Population × Rng) := do
  let numParents ← p.numParents
  let sorted := S.sort ReverseSort.Less p.organisms
  -- mostFit := p.organisms[:numParents]
  if numParents < 0 ∨ numParents > sorted.length then
    throw Fault.outOfRange
  let mostFit := sorted.take numParents.toNat
  -- Shuffle
  let (mostFit, g) ← shuffleLoop mostFit.length 0 mostFit g
  let storage := mostFit ++ sorted.drop numParents.toNat
  pure (storage.take numParents.toNat, { p with organisms := storage }, g)

/-- Go `func (p *Population) killWeakestOrganisms() int`. -/
def Population.killWeakestOrganisms [Platform] (S : SortAlg) (p : Population) :
    Except Fault (Int × Population) := do
  let numToKill ← p.numToKill
  let sorted := S.sort Organisms.Less p.organisms
  -- p.organisms = p.organisms[numToKill:]
  if numToKill < 0 ∨ numToKill > sorted.length then
    throw Fault.outOfRange
  pure (numToKill, { p with organisms := sorted.drop numToKill.toNat })

/-! ## The generational loop -/

/-- The breeding loop of `evolve` (`for j := 0; j < len(parents); j += 2`), by
recursion on the parents not yet visited: `parents[j+1]` is out of range when one
parent is left over. -/
def breed : Organisms → Rng → Except Fault (Organisms × Rng)
  | [], g => pure ([], g)
  | [_], _ => throw Fault.outOfRange
  | p0 :: p1 :: rest, g => do
    let (child, g) ← IntOrganism.crossover p0 p1 g
    let (children, g) ← breed rest g
    pure (IntOrganism.mutate child :: children, g)

/-- A line of progress output. -/
inductive Line where
  /-- The line `Iteration: i; Size: size; Value: value; Best: best`. -/
  | iteration (i size value best : Int)
  /-- The line `children children born, killed organisms die`. -/
  | births (children killed : Int)
  deriving DecidableEq

/-- The `Iteration: ...` line; `p.best().value()` is a call on nil when the
population is empty. -/
def Population.report (p : Population) (i : Int) : Except Fault Line :=
  match p.best with
  | none => throw Fault.nilDeref
  | some bestOrg =>
    pure (Line.iteration i p.organisms.length p.value (IntOrganism.value bestOrg))

/-- The body of the loop of `evolve` up to and including the merge
`p.organisms = append(p.organisms, children...)`.  Returns the population, the
random source, the number of children and the number killed. -/
def Population.breedAndCull [Platform] (S : SortAlg) (p : Population) (g : Rng) :
    Except Fault (Population × Rng × Int × Int) := do
  let (parents, p, g) ← p.selectParents S g
  let (children, g) ← breed parents g
  let (numKilled, p) ← p.killWeakestOrganisms S
  pure ({ p with organisms := p.organisms ++ children }, g, children.length, numKilled)

/-- One pass through the body of the loop of `evolve`, with its two lines of
output. -/
def Population.generation [Platform] (S : SortAlg) (p : Population) (g : Rng) (i : Int) :
    Except Fault (Population × Rng × List Line) := do
  let (p, g, born, numKilled) ← p.breedAndCull S g
  let line ← p.report i
  pure (p, g, [Line.births born numKilled, line])

/-- The loop of `evolve`: `n` more generations, the next one numbered `i`. -/
def evolveLoop [Platform] (S : SortAlg) :
    Nat → Int → Population → Rng → List Line → Except Fault (Population × Rng × List Line)
  | 0, _, p, g, out => pure (p, g, out)
  | n + 1, i, p, g, out => do
    let (p, g, lines) ← p.generation S g i
    evolveLoop S n (i + 1) p g (out ++ lines)

/-- Go `func (p Population) evolve(iters int)`: the final population, the random
source and the lines printed.  A panic ends the run, and the result is then the
fault alone. -/
def Population.evolve [Platform] (S : SortAlg) (p : Population) (iters : Int) (g : Rng) :
    Except Fault (Population × Rng × List Line) := do
  let line ← p.report 0
  evolveLoop S iters.toNat 1 p g [line]

/-- The population that `evolve` holds when one pass through the body of its loop
ends, whether the pass reaches the end of the body or panics on the way.  The only
panic of `selectParents` is the slice expression of line 87, after the descending
sort of line 86 has reordered the storage; a panic of `crossover` finds the storage
as `selectParents` left it; the only panic of `killWeakestOrganisms` is the slice
expression of line 101, after the ascending sort of line 100; the report of line
170 comes after the merge of line 167. -/
def Population.afterGeneration [Platform] (S : SortAlg) (p : Population) (g : Rng) :
    Population :=
  match p.selectParents S g with
  | .error _ => { p with organisms := S.sort ReverseSort.Less p.organisms }
  | .ok (parents, p1, g1) =>
    match breed parents g1 with
    | .error _ => p1
    | .ok (children, _) =>
      match p1.killWeakestOrganisms S with
      | .error _ => { p1 with organisms := S.sort Organisms.Less p1.organisms }
      | .ok (_, p2) => { p2 with organisms := p2.organisms ++ children }

/-- How a run goes on after one pass through the loop body: a panic ends it with
the population `held` at that moment; otherwise the loop continues from the
population and the random source the pass has produced. -/
def afterPass (held : Population) (rest : Population → Rng → Population) :
    Except Fault (Population × Rng × List Line) → Population
  | .error _ => held
  | .ok (p1, g1, _) => rest p1 g1

/-- The population that `evolve` holds when its loop ends, by running out of
iterations or by a panic: `n` more generations, the next one numbered `i`. -/
def afterEvolveLoop [Platform] (S : SortAlg) : Nat → Int → Population → Rng → Population
  | 0, _, p, _ => p
  | n + 1, i, p, g =>
    afterPass (p.afterGeneration S g) (afterEvolveLoop S n (i + 1)) (p.generation S g i)

/-- The population that `evolve(iters)` holds when the run ends, by return or by
panic.  A panic of the generation-0 report of lines 150-151 comes before anything
is written. -/
def Population.afterEvolve [Platform] (S : SortAlg) (p : Population) (iters : Int)
    (g : Rng) : Population :=
  match p.report 0 with
  | .error _ => p
  | .ok _ => afterEvolveLoop S iters.toNat 1 p g

/-! ## A reference `sort.Sort` -/

/-- Insertion sort, one function that meets the contract `SortAlg`. -/
def insertionSortAlg : SortAlg where
  sort less data := List.insertionSort (fun x y => less y x = false) data
  perm less data := List.perm_insertionSort _ data
  sorted less data h := by
    haveI : IsTotal Organism (fun x y => less y x = false) :=
      ⟨fun a b => by
        cases hab : less b a
        · exact Or.inl rfl
        · exact Or.inr (h.1 b a hab)⟩
    haveI : IsTrans Organism (fun x y => less y x = false) :=
      ⟨fun a b c hab hbc => h.2 a b c hab hbc⟩
    exact List.sorted_insertionSort _ data

/-! ## Auxiliary definitions for the statements -/

/-- A bound on the length of any `[]Organism`: an interface value takes 16 bytes, so
on a 64-bit platform a slice of `2^59` of them does not fit the address space. -/
def maxLen : Nat := 2 ^ 59

/-- The integer part of the binary32 product `float32(P) * r` for the finite
non-negative rate `r = k * 2^-149`. -/
def truncMul (P k : Nat) : Nat := roundScaled (roundScaled P 0 * k) 298 / 2 ^ 149

/-- The mathematical `floor(r * n)` of the exact product, for a finite `r`. -/
def F32.floorMul : F32 → Nat → Int
  | F32.finite neg k, n => (if neg then -(k : Int) else (k : Int)) * (n : Int) / 2 ^ 149
  | _, _ => 0

/-- The specification's `numToKill`: `floor(deathRate * populationSize)`, clamped to
the population size. -/
def specNumToKill (deathRate : F32) (populationSize : Nat) : Int :=
  min (F32.floorMul deathRate populationSize) populationSize

/-- The rate `0`. -/
def f32Zero : F32 := F32.finite false 0

/-- The rate `0.5`. -/
def f32Half : F32 := F32.finite false (2 ^ 148)

/-- The rate `1`. -/
def f32One : F32 := F32.finite false (2 ^ 149)

/-- The rate `float32(0.7)`, that is `11744051 * 2^-24`. -/
def f32SevenTenths : F32 := F32.finite false (11744051 * 2 ^ 125)

/-- The seed population of the specification's end-to-end scenario: fitnesses
2, 1, 0, 3, birth rate 0.5, death rate 0.5. -/
def seedPopulation : Population :=
  ⟨[[1, 1, 0], [1, 0, 0], [0, 0, 0], [1, 1, 1]], f32Half, f32Half⟩

/-- Ten organisms with death rate `float32(0.7)`. -/
def tenOrganisms : Population := ⟨List.replicate 10 [1], f32Zero, f32SevenTenths⟩

/-- One organism, birth rate 0, death rate 1. -/
def lonePopulation : Population := ⟨[[1]], f32Zero, f32One⟩

/-- Two organisms without genes, birth rate 1, death rate 0. -/
def emptyGenes : Population := ⟨[[], []], f32One, f32Zero⟩

/-- The specification's `numParents`: `2 * floor(birthRate * populationSize)` when
that does not exceed the population size, otherwise the largest even number not
exceeding the population size. -/
def specNumParents (birthRate : F32) (populationSize : Nat) : Int :=
  if 2 * F32.floorMul birthRate populationSize ≤ populationSize then
    2 * F32.floorMul birthRate populationSize
  else 2 * ((populationSize : Int) / 2)

/-- The rate `float32(0.35)`, that is `11744051 * 2^-25`. -/
def f32ThirtyFiveHundredths : F32 := F32.finite false (11744051 * 2 ^ 124)

/-- Twenty organisms with birth rate `float32(0.35)`. -/
def twentyOrganisms : Population :=
  ⟨List.replicate 20 [1], f32ThirtyFiveHundredths, f32Zero⟩

/-- One organism with birth rate `-1`. -/
def loneNegativeRate : Population := ⟨[[1]], F32.finite true (2 ^ 149), f32Zero⟩

/-- One organism with birth rate `2^62`. -/
def loneHugeRate : Population := ⟨[[1]], F32.finite false (2 ^ 211), f32Zero⟩

/-- A population of `2^24 + 1` organisms with death rate `1`. -/
def largePopulation : Population := ⟨List.replicate (2 ^ 24 + 1) [], f32Zero, f32One⟩

/-- Two organisms with birth rate `2^61`. -/
def pairHugeRate : Population := ⟨[[1], [0]], F32.finite false (2 ^ 210), f32Zero⟩

/-- Three organisms of fitness `2^62`, death rate 0.5: the total value wraps. -/
def overflowTrio : Population := ⟨List.replicate 3 [2 ^ 62], f32Zero, f32Half⟩

/-- Two organisms of fitness `2^62`, death rate 0.5: the total value wraps. -/
def overflowPair : Population := ⟨List.replicate 2 [2 ^ 62], f32Zero, f32Half⟩

/-- One organism and the death rate `2^63`. -/
def loneHugeDeath : Population := ⟨[[1]], f32Zero, F32.finite false (2 ^ 212)⟩

/-! ## Lemmas: binary32 rounding -/

theorem bitsAux_spec : ∀ fuel n, n ≤ fuel →
    n < 2 ^ bitsAux fuel n ∧ (n ≠ 0 → 2 ^ (bitsAux fuel n - 1) ≤ n)
  | 0, n, h => by
    have : n = 0 := by omega
    subst this; simp [bitsAux]
  | fuel + 1, n, h => by
    unfold bitsAux
    by_cases hn : n = 0
    · simp [hn]
    · rw [if_neg hn]
      obtain ⟨h1, h2⟩ := bitsAux_spec fuel (n / 2) (by omega)
      constructor
      · rw [pow_succ]; omega
      · intro _
        rw [Nat.add_sub_cancel]
        by_cases h0 : n / 2 = 0
        · have hb : bitsAux fuel (n / 2) = 0 := by
            rw [h0]; cases fuel <;> simp [bitsAux]
          rw [hb]; simp; omega
        · have h3 := h2 h0
          have hb : bitsAux fuel (n / 2) ≠ 0 := by
            intro hb; rw [hb] at h1; simp at h1; exact h0 h1
          obtain ⟨c, hc⟩ := Nat.exists_eq_succ_of_ne_zero hb
          rw [hc] at h3 ⊢
          simp at h3
          rw [pow_succ]; omega

theorem lt_two_pow_bits (n : Nat) : n < 2 ^ bits n := (bitsAux_spec n n le_rfl).1

theorem two_pow_bits_le (n : Nat) (h : n ≠ 0) : 2 ^ (bits n - 1) ≤ n :=
  (bitsAux_spec n n le_rfl).2 h

theorem bits_zero : bits 0 = 0 := rfl

theorem bits_le_of_lt_pow {n t : Nat} (h : n < 2 ^ t) : bits n ≤ t := by
  by_contra hc
  push_neg at hc
  have hn0 : n ≠ 0 := by
    intro h0; rw [h0, bits_zero] at hc; omega
  have h1 := two_pow_bits_le n hn0
  have h2 : 2 ^ t ≤ 2 ^ (bits n - 1) := Nat.pow_le_pow_right (by norm_num) (by omega)
  omega

theorem div_le_roundHalfEven (n s : Nat) : n / 2 ^ s ≤ roundHalfEven n s := by
  unfold roundHalfEven
  simp only
  split_ifs <;> omega

theorem roundHalfEven_le {n s M : Nat} (h : n ≤ M * 2 ^ s) : roundHalfEven n s ≤ M := by
  unfold roundHalfEven
  have hpos : 0 < 2 ^ s := by positivity
  have hq : n / 2 ^ s ≤ M := by
    calc n / 2 ^ s ≤ M * 2 ^ s / 2 ^ s := Nat.div_le_div_right h
      _ = M := Nat.mul_div_cancel _ hpos
  have hdm := Nat.div_add_mod n (2 ^ s)
  by_cases hlt : n / 2 ^ s < M
  · simp only; split_ifs <;> omega
  · have hqe : n / 2 ^ s = M := by omega
    have hmod : n % 2 ^ s = 0 := by
      rw [hqe, Nat.mul_comm] at hdm
      omega
    simp only [hmod, hqe]
    simp [hpos]

theorem roundScaled_le_pow {num scale t : Nat} (h : num ≤ 2 ^ (t + scale)) :
    roundScaled num scale ≤ 2 ^ (t + 149) := by
  unfold roundScaled
  have hs1 : scale - 149 ≤ max (bits num - 24) (scale - 149) := le_max_right _ _
  have hs2 : max (bits num - 24) (scale - 149) ≤ t + scale := by
    apply max_le
    · have hp : 0 < 2 ^ (t + scale) := by positivity
      have : num < 2 ^ (t + scale + 1) := by rw [pow_succ]; omega
      have := bits_le_of_lt_pow this
      omega
    · omega
  generalize max (bits num - 24) (scale - 149) = s at hs1 hs2
  have hM : roundHalfEven num s ≤ 2 ^ (t + scale - s) := by
    apply roundHalfEven_le
    rw [← pow_add]
    have : t + scale - s + s = t + scale := by omega
    rw [this]; exact h
  calc roundHalfEven num s * 2 ^ (s + 149 - scale)
      ≤ 2 ^ (t + scale - s) * 2 ^ (s + 149 - scale) := Nat.mul_le_mul_right _ hM
    _ = 2 ^ (t + 149) := by
      rw [← pow_add]; congr 1; omega

theorem wrapInt_of_range {x : Int} (h1 : -(2 ^ 63) ≤ x) (h2 : x < 2 ^ 63) : wrapInt x = x := by
  unfold wrapInt
  omega

theorem roundHalfEven_zero (s : Nat) : roundHalfEven 0 s = 0 := by
  have hpos : 0 < 2 ^ s := by positivity
  simp [roundHalfEven, hpos]

theorem roundScaled_zero (scale : Nat) : roundScaled 0 scale = 0 := by
  simp [roundScaled, roundHalfEven_zero]

theorem ofInt_len {P : Nat} (hP : P < maxLen) :
    F32.ofInt (P : Int) = F32.finite false (roundScaled P 0) ∧ roundScaled P 0 ≤ 2 ^ 208 := by
  have hb : roundScaled P 0 ≤ 2 ^ (59 + 149) :=
    roundScaled_le_pow (by unfold maxLen at hP; simpa using hP.le)
  refine ⟨?_, hb⟩
  have hlt : ¬ (2 ^ 277 ≤ roundScaled P 0) := by
    have : (2 : Nat) ^ (59 + 149) < 2 ^ 277 := by norm_num
    omega
  have hd : decide ((P : Int) < 0) = false := decide_eq_false (by omega)
  unfold F32.ofInt F32.ofScaled
  rw [hd, Int.natAbs_ofNat]
  exact if_neg hlt

theorem truncMul_le {P k : Nat} (hP : P < maxLen) (hk : k ≤ 2 ^ 149) :
    roundScaled (roundScaled P 0 * k) 298 ≤ 2 ^ 208 ∧ truncMul P k ≤ 2 ^ 59 := by
  have h1 := (ofInt_len hP).2
  have h2 : roundScaled P 0 * k ≤ 2 ^ (59 + 298) := by
    calc roundScaled P 0 * k ≤ 2 ^ 208 * 2 ^ 149 := Nat.mul_le_mul h1 hk
      _ = 2 ^ (59 + 298) := by rw [← pow_add]
  have h3 : roundScaled (roundScaled P 0 * k) 298 ≤ 2 ^ (59 + 149) := roundScaled_le_pow h2
  refine ⟨h3, ?_⟩
  unfold truncMul
  calc roundScaled (roundScaled P 0 * k) 298 / 2 ^ 149 ≤ 2 ^ (59 + 149) / 2 ^ 149 :=
        Nat.div_le_div_right h3
    _ = 2 ^ 59 := by rw [pow_add, Nat.mul_div_cancel _ (by positivity)]

theorem toInt_finite [Platform] (neg : Bool) (k : Nat) (h : k / 2 ^ 149 < 2 ^ 63) :
    F32.toInt (F32.finite neg k) = .ok (if neg then -((k / 2 ^ 149 : Nat) : Int) else ((k / 2 ^ 149 : Nat) : Int)) := by
  simp only [F32.toInt]
  have h' : ((k / 2 ^ 149 : Nat) : Int) < 2 ^ 63 := by exact_mod_cast h
  have h0 : (0 : Int) ≤ ((k / 2 ^ 149 : Nat) : Int) := Int.ofNat_nonneg _
  generalize ((k / 2 ^ 149 : Nat) : Int) = t at h' h0 ⊢
  have hr : -(2 ^ 63) ≤ (if neg = true then -t else t) ∧ (if neg = true then -t else t) < 2 ^ 63 := by
    cases neg
    · simp only [Bool.false_eq_true, if_false]; constructor <;> omega
    · simp only [if_true]; constructor <;> omega
  exact if_pos hr

theorem toInt_mul_ofInt [Platform] {P : Nat} {neg : Bool} {k : Nat} (hP : P < maxLen)
    (hr : F32.InUnit (F32.finite neg k)) :
    F32.toInt (F32.mul (F32.ofInt (P : Int)) (F32.finite neg k)) = .ok (truncMul P k : Int) := by
  obtain ⟨hk, hneg⟩ := hr
  obtain ⟨h1, h2⟩ := truncMul_le hP hk
  rw [(ofInt_len hP).1]
  have hlt : ¬ (2 ^ 277 ≤ roundScaled (roundScaled P 0 * k) 298) := by
    have : (2 : Nat) ^ 208 < 2 ^ 277 := by norm_num
    omega
  have h59 : ((truncMul P k : Nat) : Int) ≤ 2 ^ 59 := by exact_mod_cast h2
  have e : F32.mul (F32.finite false (roundScaled P 0)) (F32.finite neg k)
      = F32.finite neg (roundScaled (roundScaled P 0 * k) 298) := by
    show F32.ofScaled (xor false neg) (roundScaled P 0 * k) 298 = _
    unfold F32.ofScaled
    rw [Bool.false_xor]
    exact if_neg hlt
  have hlt63 : roundScaled (roundScaled P 0 * k) 298 / 2 ^ 149 < 2 ^ 63 := by
    have : (2 : Nat) ^ 59 < 2 ^ 63 := by norm_num
    unfold truncMul at h2
    omega
  rw [e, toInt_finite neg _ hlt63]
  rcases hneg with hneg | hk0
  · subst hneg
    rfl
  · subst hk0
    have ht : roundScaled (roundScaled P 0 * 0) 298 / 2 ^ 149 = 0 := by
      rw [Nat.mul_zero, roundScaled_zero]; exact Nat.zero_div _
    unfold truncMul
    rw [ht]
    cases neg <;> rfl

theorem roundHalfEven_exact (n : Nat) : roundHalfEven n 0 = n := by
  simp [roundHalfEven, Nat.mod_one]

theorem roundScaled_small {P : Nat} (h : P < 2 ^ 24) : roundScaled P 0 = P * 2 ^ 149 := by
  have hb := bits_le_of_lt_pow h
  have hs : max (bits P - 24) (0 - 149) = 0 := by
    rw [Nat.sub_eq_zero_of_le hb]; rfl
  show roundHalfEven P (max (bits P - 24) (0 - 149)) *
    2 ^ (max (bits P - 24) (0 - 149) + 149 - 0) = P * 2 ^ 149
  rw [hs, roundHalfEven_exact]

theorem truncMul_floor {P k : Nat} (hP : P < 2 ^ 24) (hk : k ≤ 2 ^ 149) :
    P * k / 2 ^ 149 ≤ truncMul P k ∧ truncMul P k ≤ P * k / 2 ^ 149 + 1 := by
  unfold truncMul
  rw [roundScaled_small hP]
  have hp149 : 0 < 2 ^ 149 := by positivity
  have hf1 : P * k / 2 ^ 149 * 2 ^ 149 ≤ P * k := Nat.div_mul_le_self _ _
  have hf2 : P * k < (P * k / 2 ^ 149 + 1) * 2 ^ 149 := by
    have := Nat.lt_succ_iff.mpr (Nat.le_refl (P * k / 2 ^ 149))
    exact (Nat.div_lt_iff_lt_mul hp149).mp this
  generalize hf : P * k / 2 ^ 149 = f at hf1 hf2
  have hnum : P * 2 ^ 149 * k = P * k * 2 ^ 149 := by ring
  rw [hnum]
  have hlo : f * 2 ^ 298 ≤ P * k * 2 ^ 149 := by
    calc f * 2 ^ 298 = f * 2 ^ 149 * 2 ^ 149 := by rw [Nat.mul_assoc, ← pow_add]
      _ ≤ P * k * 2 ^ 149 := Nat.mul_le_mul_right _ hf1
  have hhi : P * k * 2 ^ 149 ≤ (f + 1) * 2 ^ 298 := by
    calc P * k * 2 ^ 149 ≤ (f + 1) * 2 ^ 149 * 2 ^ 149 := Nat.mul_le_mul_right _ hf2.le
      _ = (f + 1) * 2 ^ 298 := by rw [Nat.mul_assoc, ← pow_add]
  have hlt : P * k * 2 ^ 149 < 2 ^ 322 := by
    have h1 : P * k ≤ 2 ^ 24 * 2 ^ 149 := Nat.mul_le_mul hP.le hk
    have h2 : P * k < 2 ^ 24 * 2 ^ 149 := by
      rcases Nat.eq_zero_or_pos k with h0 | h0
      · rw [h0, Nat.mul_zero]; positivity
      · calc P * k < 2 ^ 24 * k := Nat.mul_lt_mul_of_pos_right hP h0
          _ ≤ 2 ^ 24 * 2 ^ 149 := Nat.mul_le_mul_left _ hk
    calc P * k * 2 ^ 149 < 2 ^ 24 * 2 ^ 149 * 2 ^ 149 := Nat.mul_lt_mul_of_pos_right h2 hp149
      _ = 2 ^ 322 := by rw [← pow_add, ← pow_add]
  generalize P * k * 2 ^ 149 = num at hlo hhi hlt
  have hbits := bits_le_of_lt_pow hlt
  show roundHalfEven num (max (bits num - 24) (298 - 149)) *
      2 ^ (max (bits num - 24) (298 - 149) + 149 - 298) / 2 ^ 149 ∈ Set.Icc f (f + 1)
  have hs1 : 149 ≤ max (bits num - 24) (298 - 149) := le_max_right _ _
  have hs2 : max (bits num - 24) (298 - 149) ≤ 298 := max_le (by omega) (by omega)
  generalize max (bits num - 24) (298 - 149) = s at hs1 hs2
  have e1 : 298 = (298 - s) + s := by omega
  have e2 : 149 = (298 - s) + (s + 149 - 298) := by omega
  have hps : 0 < 2 ^ s := by positivity
  rw [Set.mem_Icc]
  constructor
  · rw [Nat.le_div_iff_mul_le hp149]
    have h1 : f * 2 ^ (298 - s) ≤ num / 2 ^ s := by
      rw [Nat.le_div_iff_mul_le hps, Nat.mul_assoc, ← pow_add, ← e1]
      exact hlo
    calc f * 2 ^ 149 = f * 2 ^ (298 - s) * 2 ^ (s + 149 - 298) := by
          rw [Nat.mul_assoc, ← pow_add, ← e2]
      _ ≤ roundHalfEven num s * 2 ^ (s + 149 - 298) :=
          Nat.mul_le_mul_right _ (h1.trans (div_le_roundHalfEven num s))
  · have h1 : roundHalfEven num s ≤ (f + 1) * 2 ^ (298 - s) := by
      apply roundHalfEven_le
      rw [Nat.mul_assoc, ← pow_add, ← e1]
      exact hhi
    have h2 : roundHalfEven num s * 2 ^ (s + 149 - 298) ≤ (f + 1) * 2 ^ 149 := by
      calc roundHalfEven num s * 2 ^ (s + 149 - 298)
          ≤ (f + 1) * 2 ^ (298 - s) * 2 ^ (s + 149 - 298) := Nat.mul_le_mul_right _ h1
        _ = (f + 1) * 2 ^ 149 := by rw [Nat.mul_assoc, ← pow_add, ← e2]
    exact Nat.div_le_of_le_mul (by rw [Nat.mul_comm (2 ^ 149)]; exact h2)

theorem bits_mono {a b : Nat} (h : a ≤ b) : bits a ≤ bits b :=
  bits_le_of_lt_pow (Nat.lt_of_le_of_lt h (lt_two_pow_bits b))

theorem bits_pos {n : Nat} (h : n ≠ 0) : 1 ≤ bits n := by
  by_contra hc
  have h0 : bits n = 0 := by omega
  have := lt_two_pow_bits n
  rw [h0] at this
  omega

theorem bits_two_pow_mul {n : Nat} (a : Nat) (h : n ≠ 0) : bits (2 ^ a * n) = bits n + a := by
  have hpa : 0 < 2 ^ a := by positivity
  have h1 := lt_two_pow_bits n
  have h2 := two_pow_bits_le n h
  have hb := bits_pos h
  apply le_antisymm
  · apply bits_le_of_lt_pow
    rw [pow_add, Nat.mul_comm]
    exact Nat.mul_lt_mul_of_pos_right h1 hpa
  · by_contra hc
    push_neg at hc
    have h3 := lt_two_pow_bits (2 ^ a * n)
    have h4 : 2 ^ bits (2 ^ a * n) ≤ 2 ^ (bits n - 1 + a) :=
      Nat.pow_le_pow_right (by norm_num) (by omega)
    have h5 : 2 ^ (bits n - 1 + a) ≤ 2 ^ a * n := by
      rw [pow_add, Nat.mul_comm]
      exact Nat.mul_le_mul_left _ h2
    omega

theorem bits_two_pow (a : Nat) : bits (2 ^ a) = a + 1 := by
  have := bits_two_pow_mul a (show (1 : Nat) ≠ 0 by decide)
  rw [Nat.mul_one] at this
  rw [this]
  have h1 : bits 1 = 1 := by decide
  omega

/-- A binary32 magnitude below the exact value is not passed by rounding. -/
theorem le_roundScaled {y num scale : Nat} (hsc : 149 ≤ scale)
    (hy : y % 2 ^ (bits y - 24) = 0) (hle : y * 2 ^ (scale - 149) ≤ num) :
    y ≤ roundScaled num scale := by
  unfold roundScaled
  have hs1 : scale - 149 ≤ max (bits num - 24) (scale - 149) := le_max_right _ _
  have hs2 : bits num - 24 ≤ max (bits num - 24) (scale - 149) := le_max_left _ _
  have hs3 : max (bits num - 24) (scale - 149) = bits num - 24 ∨
      max (bits num - 24) (scale - 149) = scale - 149 := by
    rcases le_total (bits num - 24) (scale - 149) with h | h
    · right; exact max_eq_right h
    · left; exact max_eq_left h
  generalize max (bits num - 24) (scale - 149) = s at hs1 hs2 hs3
  have hps : 0 < 2 ^ s := by positivity
  have hfl := div_le_roundHalfEven num s
  by_cases hdiv : 2 ^ (s + 149 - scale) ∣ y
  · obtain ⟨c, hc⟩ := hdiv
    have e1 : s = (s + 149 - scale) + (scale - 149) := by omega
    have h1 : c * 2 ^ s ≤ num := by
      calc c * 2 ^ s = c * (2 ^ (s + 149 - scale) * 2 ^ (scale - 149)) := by
            rw [← pow_add, ← e1]
        _ = y * 2 ^ (scale - 149) := by rw [hc]; ring
        _ ≤ num := hle
    have h2 : c ≤ num / 2 ^ s := (Nat.le_div_iff_mul_le hps).mpr h1
    calc y = c * 2 ^ (s + 149 - scale) := by rw [hc]; ring
      _ ≤ roundHalfEven num s * 2 ^ (s + 149 - scale) :=
          Nat.mul_le_mul_right _ (h2.trans hfl)
  · have hlt : bits y - 24 < s + 149 - scale := by
      by_contra hc
      push_neg at hc
      exact hdiv ((pow_dvd_pow 2 hc).trans (Nat.dvd_of_mod_eq_zero hy))
    have hs : s = bits num - 24 := by
      rcases hs3 with h | h
      · exact h
      · omega
    have hnum0 : num ≠ 0 := by
      intro h0
      rw [h0, bits_zero] at hs
      omega
    have hb := two_pow_bits_le num hnum0
    have h23 : 2 ^ 23 ≤ num / 2 ^ s := by
      rw [Nat.le_div_iff_mul_le hps, ← pow_add]
      have : 23 + s = bits num - 1 := by omega
      rw [this]; exact hb
    have hylt : y < 2 ^ (23 + (s + 149 - scale)) :=
      Nat.lt_of_lt_of_le (lt_two_pow_bits y) (Nat.pow_le_pow_right (by norm_num) (by omega))
    calc y ≤ 2 ^ (23 + (s + 149 - scale)) := hylt.le
      _ = 2 ^ 23 * 2 ^ (s + 149 - scale) := pow_add _ _ _
      _ ≤ roundHalfEven num s * 2 ^ (s + 149 - scale) :=
          Nat.mul_le_mul_right _ (h23.trans hfl)

/-- A binary32 magnitude above the exact value is not passed by rounding. -/
theorem roundScaled_le {y num scale : Nat} (hsc : 149 ≤ scale)
    (hy : y % 2 ^ (bits y - 24) = 0) (hle : num ≤ y * 2 ^ (scale - 149)) :
    roundScaled num scale ≤ y := by
  rcases Nat.eq_zero_or_pos y with h0 | hpos
  · subst h0
    have : num = 0 := by omega
    rw [this, roundScaled_zero]
  have hbn : bits num ≤ bits y + (scale - 149) := by
    have := bits_mono hle
    rw [Nat.mul_comm, bits_two_pow_mul _ (by omega)] at this
    exact this
  unfold roundScaled
  have hs1 : scale - 149 ≤ max (bits num - 24) (scale - 149) := le_max_right _ _
  have hs2 : max (bits num - 24) (scale - 149) ≤ bits y - 24 + (scale - 149) :=
    max_le (by omega) (by omega)
  generalize max (bits num - 24) (scale - 149) = s at hs1 hs2
  have hdiv : 2 ^ (s + 149 - scale) ∣ y :=
    (pow_dvd_pow 2 (by omega)).trans (Nat.dvd_of_mod_eq_zero hy)
  obtain ⟨c, hc⟩ := hdiv
  have e1 : s = (s + 149 - scale) + (scale - 149) := by omega
  have h1 : num ≤ c * 2 ^ s := by
    calc num ≤ y * 2 ^ (scale - 149) := hle
      _ = c * (2 ^ (s + 149 - scale) * 2 ^ (scale - 149)) := by rw [hc]; ring
      _ = c * 2 ^ s := by rw [← pow_add, ← e1]
  calc roundHalfEven num s * 2 ^ (s + 149 - scale)
      ≤ c * 2 ^ (s + 149 - scale) := Nat.mul_le_mul_right _ (roundHalfEven_le h1)
    _ = y := by rw [hc]; ring

theorem roundScaled_exact {y scale : Nat} (hsc : 149 ≤ scale)
    (hy : y % 2 ^ (bits y - 24) = 0) : roundScaled (y * 2 ^ (scale - 149)) scale = y :=
  le_antisymm (roundScaled_le hsc hy le_rfl) (le_roundScaled hsc hy le_rfl)

theorem mul_one_exact {neg : Bool} {k : Nat} (hrep : F32.Representable k) :
    F32.mul (F32.ofInt ((1 : Nat) : Int)) (F32.finite neg k) = F32.finite neg k := by
  have h1 : roundScaled 1 0 = 2 ^ 149 := by
    rw [roundScaled_small (by norm_num), Nat.one_mul]
  rw [(ofInt_len (show 1 < maxLen by decide)).1, h1]
  have e : roundScaled (2 ^ 149 * k) 298 = k := by
    have h := @roundScaled_exact k 298 (by norm_num) hrep.1
    have h149 : 298 - 149 = 149 := by norm_num
    rw [h149, Nat.mul_comm] at h
    exact h
  show F32.ofScaled (xor false neg) (2 ^ 149 * k) 298 = _
  unfold F32.ofScaled
  rw [Bool.false_xor, e]
  exact if_neg (by have := hrep.2; omega)

theorem roundHalfEven_le_two_pow {num s : Nat} (hs : bits num - 24 ≤ s) :
    roundHalfEven num s ≤ 2 ^ 24 := by
  apply roundHalfEven_le
  rw [← pow_add]
  exact (lt_two_pow_bits num).le.trans (Nat.pow_le_pow_right (by norm_num) (by omega))

theorem roundScaled_representable (num scale : Nat) :
    roundScaled num scale % 2 ^ (bits (roundScaled num scale) - 24) = 0 := by
  show roundHalfEven num (max (bits num - 24) (scale - 149)) *
      2 ^ (max (bits num - 24) (scale - 149) + 149 - scale) %
    2 ^ (bits (roundHalfEven num (max (bits num - 24) (scale - 149)) *
      2 ^ (max (bits num - 24) (scale - 149) + 149 - scale)) - 24) = 0
  have hs2 : bits num - 24 ≤ max (bits num - 24) (scale - 149) := le_max_left _ _
  generalize max (bits num - 24) (scale - 149) = s at hs2
  have hm := roundHalfEven_le_two_pow hs2
  generalize roundHalfEven num s = m at hm
  generalize s + 149 - scale = e
  rcases Nat.eq_zero_or_pos m with h0 | hpos
  · rw [h0, Nat.zero_mul]; exact Nat.zero_mod _
  apply Nat.mod_eq_zero_of_dvd
  have hbits : bits (m * 2 ^ e) = bits m + e := by
    rw [Nat.mul_comm]; exact bits_two_pow_mul e (by omega)
  rw [hbits]
  rcases Nat.lt_or_ge m (2 ^ 24) with hlt | hge
  · have hb := bits_le_of_lt_pow hlt
    exact (pow_dvd_pow 2 (by omega)).trans (Dvd.intro_left m rfl)
  · have hme : m = 2 ^ 24 := le_antisymm hm hge
    rw [hme, bits_two_pow, ← pow_add]
    exact pow_dvd_pow 2 (by omega)

theorem ofInt_lower {P : Nat} (hP : P ≠ 0) : 2 ^ (bits P - 1 + 149) ≤ roundScaled P 0 := by
  have hb := two_pow_bits_le P hP
  have hpos := bits_pos hP
  show _ ≤ roundHalfEven P (max (bits P - 24) (0 - 149)) *
    2 ^ (max (bits P - 24) (0 - 149) + 149 - 0)
  have hs : max (bits P - 24) (0 - 149) = bits P - 24 := by
    rw [Nat.zero_sub]; exact max_eq_left (Nat.zero_le _)
  rw [hs]
  have hfl := div_le_roundHalfEven P (bits P - 24)
  have hps : 0 < 2 ^ (bits P - 24) := by positivity
  have h1 : 2 ^ (bits P - 1 - (bits P - 24)) ≤ P / 2 ^ (bits P - 24) := by
    rw [Nat.le_div_iff_mul_le hps, ← pow_add]
    have : bits P - 1 - (bits P - 24) + (bits P - 24) = bits P - 1 := by omega
    rw [this]; exact hb
  calc 2 ^ (bits P - 1 + 149)
      = 2 ^ (bits P - 1 - (bits P - 24)) * 2 ^ (bits P - 24 + 149 - 0) := by
        rw [← pow_add]; congr 1; omega
    _ ≤ roundHalfEven P (bits P - 24) * 2 ^ (bits P - 24 + 149 - 0) :=
        Nat.mul_le_mul_right _ (h1.trans hfl)

theorem P_le_truncMul {P k : Nat} (hk : 2 ^ 149 ≤ k) (hfl : P * 2 ^ 149 ≤ roundScaled P 0) :
    P ≤ truncMul P k := by
  have hp149 : 0 < 2 ^ 149 := by positivity
  have h149 : 298 - 149 = 149 := by norm_num
  have h1 : roundScaled P 0 ≤ roundScaled (roundScaled P 0 * k) 298 := by
    apply le_roundScaled (by norm_num) (roundScaled_representable P 0)
    rw [h149]
    exact Nat.mul_le_mul_left _ hk
  unfold truncMul
  rw [Nat.le_div_iff_mul_le hp149]
  exact hfl.trans h1

theorem half_lt_truncMul {P k : Nat} (hP : P ≠ 0) (hk : 2 ^ 149 ≤ k) :
    P < 2 * truncMul P k := by
  have hp149 : 0 < 2 ^ 149 := by positivity
  have h149 : 298 - 149 = 149 := by norm_num
  have hpos := bits_pos hP
  have h1 : 2 ^ (bits P - 1 + 149) ≤ roundScaled (roundScaled P 0 * k) 298 := by
    apply le_roundScaled (by norm_num)
    · rw [bits_two_pow]
      exact Nat.mod_eq_zero_of_dvd (pow_dvd_pow 2 (by omega))
    · rw [h149]
      exact Nat.mul_le_mul (ofInt_lower hP) hk
  have h2 : 2 ^ (bits P - 1) ≤ truncMul P k := by
    unfold truncMul
    rw [Nat.le_div_iff_mul_le hp149, ← pow_add]
    exact h1
  have h3 := lt_two_pow_bits P
  have e : bits P = (bits P - 1) + 1 := by omega
  rw [e, pow_succ] at h3
  omega

theorem roundHalfEven_near (n s : Nat) : 2 * (roundHalfEven n s * 2 ^ s) ≤ 2 * n + 2 ^ s := by
  unfold roundHalfEven
  have hpos : 0 < 2 ^ s := by positivity
  have hdm := Nat.div_add_mod n (2 ^ s)
  have hlt := Nat.mod_lt n hpos
  generalize n / 2 ^ s = q at hdm
  generalize n % 2 ^ s = r at hdm hlt
  rw [Nat.mul_comm] at hdm
  simp only
  split_ifs
  · omega
  · rw [Nat.add_mul]; omega
  · omega
  · rw [Nat.add_mul]; omega

theorem roundScaled_zero_le {y P : Nat} (hy : y % 2 ^ (bits y - 24) = 0)
    (hle : P * 2 ^ 149 ≤ y) : roundScaled P 0 ≤ y := by
  rcases Nat.lt_or_ge P (2 ^ 24) with hsmall | hbig
  · rw [roundScaled_small hsmall]; exact hle
  have hP0 : P ≠ 0 := by
    have : 0 < 2 ^ 24 := by positivity
    omega
  have hbP : 25 ≤ bits P := by
    by_contra hc
    have h1 := lt_two_pow_bits P
    have h2 : 2 ^ bits P ≤ 2 ^ 24 := Nat.pow_le_pow_right (by norm_num) (by omega)
    omega
  have hby : bits P + 149 ≤ bits y := by
    have := bits_mono hle
    rw [Nat.mul_comm, bits_two_pow_mul _ hP0] at this
    exact this
  show roundHalfEven P (max (bits P - 24) (0 - 149)) *
    2 ^ (max (bits P - 24) (0 - 149) + 149 - 0) ≤ y
  have hs : max (bits P - 24) (0 - 149) = bits P - 24 := by
    rw [Nat.zero_sub]; exact max_eq_left (Nat.zero_le _)
  rw [hs, Nat.sub_zero]
  have hdiv : 2 ^ (bits P - 24 + 149) ∣ y :=
    (pow_dvd_pow 2 (by omega)).trans (Nat.dvd_of_mod_eq_zero hy)
  obtain ⟨c, hc⟩ := hdiv
  have h1 : P ≤ c * 2 ^ (bits P - 24) := by
    have h2 : P * 2 ^ 149 ≤ c * 2 ^ (bits P - 24) * 2 ^ 149 := by
      calc P * 2 ^ 149 ≤ y := hle
        _ = c * 2 ^ (bits P - 24) * 2 ^ 149 := by rw [hc, pow_add]; ring
    exact Nat.le_of_mul_le_mul_right h2 (by positivity)
  calc roundHalfEven P (bits P - 24) * 2 ^ (bits P - 24 + 149)
      ≤ c * 2 ^ (bits P - 24 + 149) := Nat.mul_le_mul_right _ (roundHalfEven_le h1)
    _ = y := by rw [hc]; ring

theorem representable_lt_one {k : Nat} (hrep : F32.Representable k) (hk : k < 2 ^ 149) :
    k + 2 ^ 125 ≤ 2 ^ 149 := by
  have hb := bits_le_of_lt_pow hk
  rcases Nat.lt_or_ge (bits k) 149 with hlt | hge
  · have h1 := lt_two_pow_bits k
    have h2 : 2 ^ bits k ≤ 2 ^ 148 := Nat.pow_le_pow_right (by norm_num) (by omega)
    have h3 : (2 : Nat) ^ 148 + 2 ^ 125 ≤ 2 ^ 149 := by norm_num
    omega
  · have hbk : bits k = 149 := by omega
    have hmod := hrep.1
    rw [hbk] at hmod
    obtain ⟨c, hc⟩ := Nat.dvd_of_mod_eq_zero hmod
    have h125 : (149 : Nat) - 24 = 125 := by norm_num
    rw [h125] at hc
    have hp : (2 : Nat) ^ 149 = 2 ^ 125 * 2 ^ 24 := by rw [← pow_add]
    rw [hp, hc] at hk ⊢
    have hc24 : c < 2 ^ 24 := Nat.lt_of_mul_lt_mul_left hk
    calc 2 ^ 125 * c + 2 ^ 125 = 2 ^ 125 * (c + 1) := by ring
      _ ≤ 2 ^ 125 * 2 ^ 24 := Nat.mul_le_mul_left _ hc24

/-- A rate below one pulls the rounded product strictly below `float32(P)`. -/
theorem roundScaled_mul_lt {P k : Nat} (hP : P ≠ 0) (hk : k + 2 ^ 125 ≤ 2 ^ 149) :
    roundScaled (roundScaled P 0 * k) 298 < roundScaled P 0 := by
  have h149 : 298 - 149 = 149 := by norm_num
  have hF := ofInt_lower hP
  have hbP := bits_pos hP
  generalize hFdef : roundScaled P 0 = F at hF
  have hFrep : F % 2 ^ (bits F - 24) = 0 := by
    rw [← hFdef]; exact roundScaled_representable P 0
  have hF149 : 2 ^ 149 ≤ F :=
    (Nat.pow_le_pow_right (by norm_num) (by omega)).trans hF
  have hF0 : F ≠ 0 := by
    have : 0 < 2 ^ 149 := by positivity
    omega
  have hle : roundScaled (F * k) 298 ≤ F := by
    apply roundScaled_le (by norm_num) hFrep
    rw [h149]
    exact Nat.mul_le_mul_left _ (by omega)
  rcases Nat.lt_or_ge (roundScaled (F * k) 298) F with hlt | hge
  · exact hlt
  exfalso
  have heq : roundScaled (F * k) 298 = F := le_antisymm hle hge
  -- the rounded value is within half a quantum of the exact product
  have hnear := roundHalfEven_near (F * k) (max (bits (F * k) - 24) (298 - 149))
  have hval : roundHalfEven (F * k) (max (bits (F * k) - 24) (298 - 149)) *
      2 ^ (max (bits (F * k) - 24) (298 - 149) + 149 - 298) = F := heq
  have hs1 : 149 ≤ max (bits (F * k) - 24) (298 - 149) := le_max_right _ _
  have hs3 : max (bits (F * k) - 24) (298 - 149) = bits (F * k) - 24 ∨
      max (bits (F * k) - 24) (298 - 149) = 149 := by
    rcases le_total (bits (F * k) - 24) (298 - 149) with h | h
    · right; rw [max_eq_right h]
    · left; exact max_eq_left h
  generalize max (bits (F * k) - 24) (298 - 149) = s at hnear hval hs1 hs3
  generalize roundHalfEven (F * k) s = m at hnear hval
  have e1 : s = (s + 149 - 298) + 149 := by omega
  have hFs : m * 2 ^ s = F * 2 ^ 149 := by
    rw [← hval]
    conv_lhs => rw [e1, pow_add]
    ring
  rw [hFs] at hnear
  -- hence F * 2^126 ≤ 2^s
  have hgap : F * 2 ^ 126 ≤ 2 ^ s := by
    have h1 : F * k + F * 2 ^ 125 ≤ F * 2 ^ 149 := by
      rw [← Nat.mul_add]; exact Nat.mul_le_mul_left _ hk
    have h2 : F * 2 ^ 126 = 2 * (F * 2 ^ 125) := by
      rw [show (126 : Nat) = 125 + 1 from rfl, pow_succ]; ring
    omega
  have hbF := two_pow_bits_le F hF0
  have hbFpos := bits_pos hF0
  have hbF150 : 150 ≤ bits F := by
    by_contra hc
    have h1 := lt_two_pow_bits F
    have h2 : 2 ^ bits F ≤ 2 ^ 149 := Nat.pow_le_pow_right (by norm_num) (by omega)
    omega
  have hlow : 2 ^ (bits F + 125) ≤ F * 2 ^ 126 := by
    have e : bits F + 125 = (bits F - 1) + 126 := by omega
    rw [e, pow_add]
    exact Nat.mul_le_mul_right _ hbF
  have hsge : bits F + 125 ≤ s := by
    by_contra hc
    have : 2 ^ s < 2 ^ (bits F + 125) := Nat.pow_lt_pow_right (by norm_num) (by omega)
    omega
  have hs : s = bits (F * k) - 24 := by
    rcases hs3 with h | h
    · exact h
    · omega
  have hnum : bits F + 149 ≤ bits (F * k) := by omega
  have hk0 : F * k ≠ 0 := by
    intro h0
    rw [h0, bits_zero] at hnum
    omega
  have h3 := two_pow_bits_le (F * k) hk0
  have h4 : 2 ^ (bits F + 148) ≤ 2 ^ (bits (F * k) - 1) :=
    Nat.pow_le_pow_right (by norm_num) (by omega)
  have h5 : F * 2 ^ 149 < 2 ^ (bits F + 149) := by
    rw [pow_add]
    exact Nat.mul_lt_mul_of_pos_right (lt_two_pow_bits F) (by positivity)
  have h6 : F * k < F * 2 ^ 149 := by
    apply Nat.mul_lt_mul_of_pos_left
    · have : 0 < 2 ^ 125 := by positivity
      omega
    · omega
  have h7 : (2 : Nat) ^ (bits F + 149) = 2 * 2 ^ (bits F + 148) := by
    rw [show bits F + 149 = bits F + 148 + 1 from rfl, pow_succ]; ring
  -- F * 2^126 ≤ 2^s with s ≤ bits (F*k) - 24 forces F*k ≥ F * 2^149 / ... contradiction
  have h8 : 2 ^ s ≤ 2 ^ (bits (F * k) - 24) := by rw [hs]
  have h9 : 2 ^ (bits (F * k) - 24) * 2 ^ 23 ≤ F * k := by
    rw [← pow_add]
    have : bits (F * k) - 24 + 23 = bits (F * k) - 1 := by omega
    rw [this]; exact h3
  have h10 : F * 2 ^ 126 * 2 ^ 23 ≤ F * k :=
    (Nat.mul_le_mul_right _ (hgap.trans h8)).trans h9
  have h11 : F * 2 ^ 126 * 2 ^ 23 = F * 2 ^ 149 := by
    rw [Nat.mul_assoc, ← pow_add]
  omega

theorem truncMul_lt {P k : Nat} (hP : P ≠ 0) (hrep : F32.Representable k)
    (hk : k < 2 ^ 149) : truncMul P k < P := by
  have hp149 : 0 < 2 ^ 149 := by positivity
  have hlt := roundScaled_mul_lt hP (representable_lt_one hrep hk)
  by_contra hc
  push_neg at hc
  unfold truncMul at hc
  have h1 : P * 2 ^ 149 ≤ roundScaled (roundScaled P 0 * k) 298 :=
    (Nat.le_div_iff_mul_le hp149).mp hc
  have h2 := roundScaled_zero_le (roundScaled_representable (roundScaled P 0 * k) 298) h1
  omega

/-! ## Lemmas: the operations of a population -/

theorem numParents_eq [Platform] {p : Population} {neg : Bool} {k : Nat}
    (hlen : p.organisms.length < maxLen) (hr : p.birthRate = F32.finite neg k)
    (hu : F32.InUnit (F32.finite neg k)) :
    p.numParents = .ok ((if 2 * truncMul p.organisms.length k > p.organisms.length
      then 2 * (p.organisms.length / 2) else 2 * truncMul p.organisms.length k : Nat) : Int) := by
  have hk := (truncMul_le hlen hu.1).2
  have h59 : (2 : Nat) ^ 59 = 576460752303423488 := by norm_num
  unfold maxLen at hlen
  simp only [Population.numParents, hr, toInt_mul_ofInt hlen hu, bind, Except.bind]
  generalize truncMul p.organisms.length k = m at hk ⊢
  generalize p.organisms.length = P at hlen ⊢
  have hw1 : wrapInt ((m : Int) * 2) = (m : Int) * 2 := by
    apply wrapInt_of_range <;> omega
  have hw2 : wrapInt (Int.tdiv (P : Int) 2 * 2) = ((2 * (P / 2) : Nat) : Int) := by
    rw [Int.tdiv_eq_ediv (by omega) (by omega), wrapInt_of_range] <;> omega
  rw [hw1, hw2]
  by_cases hc : 2 * m > P
  · rw [if_pos hc, if_pos (by omega)]; rfl
  · rw [if_neg hc, if_neg (by omega)]
    exact congrArg Except.ok (by push_cast; ring)

theorem numToKill_eq [Platform] {p : Population} {neg : Bool} {k : Nat}
    (hlen : p.organisms.length < maxLen) (hr : p.deathRate = F32.finite neg k)
    (hu : F32.InUnit (F32.finite neg k)) :
    p.numToKill = .ok ((min (truncMul p.organisms.length k) p.organisms.length : Nat) : Int) := by
  simp only [Population.numToKill, hr, toInt_mul_ofInt hlen hu, bind, Except.bind]
  generalize truncMul p.organisms.length k = m
  generalize p.organisms.length = P
  by_cases hc : m > P
  · rw [if_pos (by omega)]
    exact congrArg Except.ok (by omega)
  · rw [if_neg (by omega)]
    exact congrArg Except.ok (by omega)

theorem numParents_spec [Platform] {p : Population} (hlen : p.organisms.length < maxLen)
    (hb : p.birthRate.InUnit) :
    ∃ N : Nat, p.numParents = .ok (N : Int) ∧ N % 2 = 0 ∧ N ≤ p.organisms.length := by
  cases hr : p.birthRate with
  | finite neg k =>
    rw [hr] at hb
    refine ⟨_, numParents_eq hlen hr hb, ?_, ?_⟩
    · split_ifs <;> omega
    · split_ifs <;> omega
  | inf s => rw [hr] at hb; exact hb.elim
  | nan => rw [hr] at hb; exact hb.elim

theorem numToKill_spec [Platform] {p : Population} (hlen : p.organisms.length < maxLen)
    (hd : p.deathRate.InUnit) :
    ∃ K : Nat, p.numToKill = .ok (K : Int) ∧ K ≤ p.organisms.length := by
  cases hr : p.deathRate with
  | finite neg k =>
    rw [hr] at hd
    exact ⟨_, numToKill_eq hlen hr hd, Nat.min_le_right _ _⟩
  | inf s => rw [hr] at hd; exact hd.elim
  | nan => rw [hr] at hd; exact hd.elim

theorem strictWeak_less : StrictWeak Organisms.Less := by
  constructor
  · intro a b h
    simp only [Organisms.Less, decide_eq_true_eq, decide_eq_false_iff_not] at h ⊢
    omega
  · intro a b c h1 h2
    simp only [Organisms.Less, decide_eq_true_eq, decide_eq_false_iff_not] at h1 h2 ⊢
    omega

theorem strictWeak_reverse : StrictWeak ReverseSort.Less := by
  constructor
  · intro a b h
    simp only [ReverseSort.Less, Organisms.Less, decide_eq_true_eq, decide_eq_false_iff_not] at h ⊢
    omega
  · intro a b c h1 h2
    simp only [ReverseSort.Less, Organisms.Less, decide_eq_true_eq, decide_eq_false_iff_not] at h1 h2 ⊢
    omega

theorem intn_ok (g : Rng) {n : Int} (hn : 0 < n) :
    ∃ j : Nat, Rng.Intn g n = .ok ((j : Int), ⟨g.draws.tail⟩) ∧ (j : Int) < n ∧
      j = g.draws.headD 0 % n.toNat := by
  refine ⟨g.draws.headD 0 % n.toNat, ?_, ?_, rfl⟩
  · unfold Rng.Intn
    rw [if_neg (by omega)]
  · have h1 : 0 < n.toNat := by omega
    have h2 := Nat.mod_lt (g.draws.headD 0) h1
    omega

theorem set_set_perm {α : Type} [DecidableEq α] (s : List α) {i j : Nat}
    (hi : i < s.length) (hj : j < s.length) : ((s.set i s[j]).set j s[i]).Perm s := by
  rw [List.perm_iff_count]
  intro c
  have hj' : j < (s.set i s[j]).length := by simpa using hj
  rw [List.count_set _ _ _ _ hj', List.count_set _ _ _ _ hi]
  have e : (s.set i s[j])[j] = s[j] := by
    rw [List.getElem_set]
    split_ifs with h
    · rfl
    · rfl
  rw [e]
  have hc : (if (s[i] == c) = true then 1 else 0) ≤ s.count c := by
    split_ifs with h
    · have : s[i] = c := by simpa using h
      exact List.count_pos_iff.mpr (this ▸ List.getElem_mem hi)
    · omega
  omega

theorem swapAt_ok {s : Organisms} {i j : Nat} (hi : i < s.length) (hj : j < s.length) :
    ∃ s', swapAt s i j = .ok s' ∧ s'.Perm s := by
  refine ⟨(s.set i s[j]).set j s[i], ?_, set_set_perm s hi hj⟩
  unfold swapAt
  rw [List.getElem?_eq_getElem hi, List.getElem?_eq_getElem hj]

theorem shuffleLoop_ok : ∀ (n i : Nat) (l : Organisms) (g : Rng), i + n ≤ l.length →
    ∃ l' g', shuffleLoop n i l g = .ok (l', g') ∧ l'.Perm l
  | 0, _, l, g, _ => ⟨l, g, rfl, List.Perm.refl _⟩
  | n + 1, i, l, g, h => by
    obtain ⟨j, hj, hjlt, _⟩ := intn_ok g (show (0 : Int) < (i : Int) + 1 by omega)
    obtain ⟨s', hs', hperm⟩ := swapAt_ok (show i < l.length by omega)
      (show j < l.length by omega)
    obtain ⟨l', g', hl', hperm'⟩ := shuffleLoop_ok n (i + 1) s' ⟨g.draws.tail⟩
      (by rw [hperm.length_eq]; omega)
    refine ⟨l', g', ?_, hperm'.trans hperm⟩
    simp only [shuffleLoop, hj, bind, Except.bind, Int.toNat_ofNat, hs', hl']

theorem selectParents_spec [Platform] (S : SortAlg) (p : Population) (g : Rng)
    (hlen : p.organisms.length < maxLen) (hb : p.birthRate.InUnit) :
    ∃ (N : Nat) (parents : Organisms) (g' : Rng),
      p.numParents = .ok (N : Int) ∧ N % 2 = 0 ∧ N ≤ p.organisms.length ∧
      p.selectParents S g = .ok (parents,
        { p with organisms := parents ++ (S.sort ReverseSort.Less p.organisms).drop N }, g') ∧
      parents.Perm ((S.sort ReverseSort.Less p.organisms).take N) ∧
      parents.length = N := by
  obtain ⟨N, hN, heven, hle⟩ := numParents_spec hlen hb
  have hsl : (S.sort ReverseSort.Less p.organisms).length = p.organisms.length :=
    (S.perm _ _).length_eq
  have htl : ((S.sort ReverseSort.Less p.organisms).take N).length = N := by
    rw [List.length_take, hsl]; omega
  obtain ⟨l', g', hsh, hperm⟩ := shuffleLoop_ok
    ((S.sort ReverseSort.Less p.organisms).take N).length 0
    ((S.sort ReverseSort.Less p.organisms).take N) g (by omega)
  have hl' : l'.length = N := by rw [hperm.length_eq, htl]
  refine ⟨N, l', g', hN, heven, hle, ?_, hperm, hl'⟩
  have hc : ¬ ((N : Int) < 0 ∨ (N : Int) > ((S.sort ReverseSort.Less p.organisms).length : Nat)) := by
    rw [hsl]; omega
  simp only [Population.selectParents, hN, bind, Except.bind, Int.toNat_ofNat, hsh, if_neg hc]
  have ht : (l' ++ (S.sort ReverseSort.Less p.organisms).drop N).take N = l' := by
    rw [List.take_append_of_le_length (by omega), List.take_of_length_le (by omega)]
  rw [ht]
  rfl

theorem killWeakestOrganisms_spec [Platform] (S : SortAlg) (p : Population)
    (hlen : p.organisms.length < maxLen) (hd : p.deathRate.InUnit) :
    ∃ K : Nat, p.numToKill = .ok (K : Int) ∧ K ≤ p.organisms.length ∧
      p.killWeakestOrganisms S = .ok ((K : Int),
        { p with organisms := (S.sort Organisms.Less p.organisms).drop K }) := by
  obtain ⟨K, hK, hle⟩ := numToKill_spec hlen hd
  refine ⟨K, hK, hle, ?_⟩
  have hsl : (S.sort Organisms.Less p.organisms).length = p.organisms.length :=
    (S.perm _ _).length_eq
  have hc : ¬ ((K : Int) < 0 ∨ (K : Int) > ((S.sort Organisms.Less p.organisms).length : Nat)) := by
    rw [hsl]; omega
  simp only [Population.killWeakestOrganisms, hK, bind, Except.bind, Int.toNat_ofNat, if_neg hc]
  rfl

theorem crossover_ok (A B : IntOrganism) (g : Rng) (hlen : A.length = B.length)
    (hpos : 0 < A.length) :
    IntOrganism.crossover A B g =
      .ok (A.take (g.draws.headD 0 % A.length) ++ B.drop (g.draws.headD 0 % A.length),
        ⟨g.draws.tail⟩) := by
  obtain ⟨j, hj, _, hje⟩ := intn_ok g (show (0 : Int) < (A.length : Int) by omega)
  rw [Int.toNat_ofNat] at hje
  have hne : ¬ (A.length ≠ B.length) := by omega
  simp only [IntOrganism.crossover, if_neg hne, hj, bind, Except.bind, Int.toNat_ofNat,
    List.nil_append, hje]
  rfl

theorem crossover_mismatch (A B : IntOrganism) (g : Rng) (hlen : A.length ≠ B.length) :
    IntOrganism.crossover A B g = .error Fault.lengthMismatch := by
  simp only [IntOrganism.crossover, if_pos hlen, bind, Except.bind]

theorem crossover_empty (A B : IntOrganism) (g : Rng) (hlen : A.length = B.length)
    (h0 : A.length = 0) :
    IntOrganism.crossover A B g = .error Fault.intnArg := by
  have hne : ¬ (A.length ≠ B.length) := by omega
  have hI : Rng.Intn g (A.length : Int) = .error Fault.intnArg := by
    unfold Rng.Intn
    rw [if_pos (by omega)]
  simp only [IntOrganism.crossover, if_neg hne, bind, Except.bind, hI]
  rfl

theorem breed_length : ∀ (parents : Organisms) (g : Rng) (children : Organisms) (g' : Rng),
    breed parents g = .ok (children, g') → parents.length = 2 * children.length
  | [], g, children, g', h => by
    simp only [breed, pure, Except.pure] at h
    cases h; rfl
  | [_], g, children, g', h => by
    simp only [breed, throw, throwThe, MonadExceptOf.throw] at h
    cases h
  | p0 :: p1 :: rest, g, children, g', h => by
    simp only [breed, bind, Except.bind] at h
    cases hc : IntOrganism.crossover p0 p1 g with
    | error e => rw [hc] at h; cases h
    | ok v =>
      obtain ⟨child, g1⟩ := v
      rw [hc] at h
      simp only at h
      cases hb : breed rest g1 with
      | error e => rw [hb] at h; cases h
      | ok w =>
        obtain ⟨cs, g2⟩ := w
        rw [hb] at h
        simp only [pure, Except.pure] at h
        have := breed_length rest g1 cs g2 hb
        cases h
        simp only [List.length_cons, this]
        omega

theorem best_foldl (rest pre mid : Organisms) (b : Organism)
    (hpre : ∀ o ∈ pre, IntOrganism.value o < IntOrganism.value b)
    (hmid : ∀ o ∈ mid, IntOrganism.value o ≤ IntOrganism.value b) :
    ∃ pre' post', pre ++ b :: (mid ++ rest) =
        pre' ++ (rest.foldl (fun bestOrg org =>
          if IntOrganism.value org > IntOrganism.value bestOrg then org else bestOrg) b) :: post' ∧
      (∀ o ∈ pre', IntOrganism.value o < IntOrganism.value (rest.foldl (fun bestOrg org =>
          if IntOrganism.value org > IntOrganism.value bestOrg then org else bestOrg) b)) ∧
      (∀ o ∈ post', IntOrganism.value o ≤ IntOrganism.value (rest.foldl (fun bestOrg org =>
          if IntOrganism.value org > IntOrganism.value bestOrg then org else bestOrg) b)) := by
  induction rest generalizing pre mid b with
  | nil => exact ⟨pre, mid, by simp, hpre, hmid⟩
  | cons o rest ih =>
    rw [List.foldl_cons]
    by_cases hgt : IntOrganism.value o > IntOrganism.value b
    · rw [if_pos hgt]
      obtain ⟨pre', post', he, h1, h2⟩ := ih (pre ++ b :: mid) [] o
        (by
          intro x hx
          rcases List.mem_append.mp hx with hx | hx
          · have := hpre x hx; omega
          · rcases List.mem_cons.mp hx with hx | hx
            · rw [hx]; exact hgt
            · have := hmid x hx; omega)
        (by intro x hx; cases hx)
      refine ⟨pre', post', ?_, h1, h2⟩
      rw [← he]; simp
    · rw [if_neg hgt]
      obtain ⟨pre', post', he, h1, h2⟩ := ih pre (mid ++ [o]) b hpre
        (by
          intro x hx
          rcases List.mem_append.mp hx with hx | hx
          · exact hmid x hx
          · have : x = o := by simpa using hx
            rw [this]; omega)
      refine ⟨pre', post', ?_, h1, h2⟩
      rw [← he]; simp

theorem numToKill_congr [Platform] {p q : Population}
    (hl : p.organisms.length = q.organisms.length)
    (hd : p.deathRate = q.deathRate) : p.numToKill = q.numToKill := by
  unfold Population.numToKill
  rw [hl, hd]

theorem breedAndCull_spec [Platform] (S : SortAlg) (p : Population) (g : Rng)
    (hlen : p.organisms.length < maxLen) (hb : p.birthRate.InUnit) (hd : p.deathRate.InUnit)
    {parents children : Organisms} {p1 : Population} {g1 g2 : Rng}
    (hsel : p.selectParents S g = .ok (parents, p1, g1))
    (hbreed : breed parents g1 = .ok (children, g2)) :
    ∃ N K : Nat, p.numParents = .ok (N : Int) ∧ p.numToKill = .ok (K : Int) ∧
      N ≤ p.organisms.length ∧ K ≤ p.organisms.length ∧
      parents.length = N ∧ children.length = N / 2 ∧
      p1.organisms.length = p.organisms.length ∧
      p1.birthRate = p.birthRate ∧ p1.deathRate = p.deathRate ∧
      p.breedAndCull S g = .ok
        ({ p1 with organisms := (S.sort Organisms.Less p1.organisms).drop K ++ children },
          g2, (children.length : Int), (K : Int)) := by
  obtain ⟨N, parents', g', hN, _, hNle, hsel', hperm, hl⟩ := selectParents_spec S p g hlen hb
  rw [hsel'] at hsel
  simp only [Except.ok.injEq, Prod.mk.injEq] at hsel
  obtain ⟨hp, hp1, hg⟩ := hsel
  subst hp hg
  have hsl : (S.sort ReverseSort.Less p.organisms).length = p.organisms.length :=
    (S.perm _ _).length_eq
  have hl1 : p1.organisms.length = p.organisms.length := by
    rw [← hp1]
    show (parents' ++ (S.sort ReverseSort.Less p.organisms).drop N).length = _
    rw [List.length_append, List.length_drop, hsl, hl]; omega
  have hb1 : p1.birthRate = p.birthRate := by rw [← hp1]
  have hd1 : p1.deathRate = p.deathRate := by rw [← hp1]
  obtain ⟨K, hK, hKle, hkill⟩ := killWeakestOrganisms_spec S p1 (by rw [hl1]; exact hlen)
    (by rw [hd1]; exact hd)
  have hcl := breed_length _ _ _ _ hbreed
  refine ⟨N, K, hN, ?_, hNle, by omega, hl, by omega, hl1, hb1, hd1, ?_⟩
  · rw [← hK]; exact (numToKill_congr hl1 hd1).symm
  · simp only [Population.breedAndCull, hsel', hp1, bind, Except.bind, hbreed, hkill]
    rfl

theorem report_ok (p : Population) (i : Int) (hne : p.organisms ≠ []) :
    ∃ b, p.best = some b ∧
      p.report i = .ok (Line.iteration i p.organisms.length p.value (IntOrganism.value b)) := by
  cases ho : p.organisms with
  | nil => exact absurd ho hne
  | cons first rest =>
    have hb : p.best = some (rest.foldl
        (fun bestOrg org =>
          if IntOrganism.value org > IntOrganism.value bestOrg then org else bestOrg)
        first) := by
      simp only [Population.best, ho]
    refine ⟨_, hb, ?_⟩
    simp only [Population.report, hb, ho]
    rfl

theorem selectParents_none [Platform] (S : SortAlg) (p : Population) (g : Rng)
    (h : p.numParents = .ok 0) :
    p.selectParents S g =
      .ok ([], { p with organisms := S.sort ReverseSort.Less p.organisms }, g) := by
  have hc : ¬ ((0 : Int) < 0 ∨ (0 : Int) > ((S.sort ReverseSort.Less p.organisms).length : Nat)) := by
    omega
  simp only [Population.selectParents, h, bind, Except.bind, if_neg hc, Int.toNat_zero,
    List.take_zero, List.length_nil, shuffleLoop, pure, Except.pure, List.nil_append,
    List.drop_zero]

theorem wrapInt_add_left (a b : Int) : wrapInt (wrapInt a + b) = wrapInt (a + b) := by
  unfold wrapInt
  omega

theorem wrapInt_zero : wrapInt 0 = 0 := by decide

theorem foldl_wrapInt {α : Type} (f : α → Int) (l : List α) (init : Int) :
    l.foldl (fun sum x => wrapInt (sum + f x)) (wrapInt init)
      = wrapInt (init + (l.map f).sum) := by
  induction l generalizing init with
  | nil => simp
  | cons x xs ih =>
    rw [List.foldl_cons, wrapInt_add_left, ih, List.map_cons, List.sum_cons, Int.add_assoc]

theorem value_eq_wrap_sum (o : IntOrganism) : IntOrganism.value o = wrapInt o.sum := by
  have h := foldl_wrapInt (fun x : Int => x) o 0
  rw [wrapInt_zero, Int.zero_add, List.map_id'] at h
  exact h

theorem population_value_eq (p : Population) :
    p.value = wrapInt ((p.organisms.map IntOrganism.value).sum) := by
  have h := foldl_wrapInt IntOrganism.value p.organisms 0
  rw [wrapInt_zero, Int.zero_add] at h
  exact h

theorem bit_sum (o : IntOrganism) (hbits : ∀ x ∈ o, x = 0 ∨ x = 1) :
    o.sum = (o.count 1 : Int) ∧ 0 ≤ o.sum ∧ o.sum ≤ o.length := by
  induction o with
  | nil => simp
  | cons x xs ih =>
    obtain ⟨h1, h2, h3⟩ := ih (fun y hy => hbits y (List.mem_cons_of_mem _ hy))
    rw [List.sum_cons, List.length_cons, List.count_cons]
    rcases hbits x (List.mem_cons_self _ _) with hx | hx
    · subst hx
      simp only [show ((0 : Int) == 1) = false from rfl]
      refine ⟨?_, ?_, ?_⟩
      · simp [h1]
      · omega
      · push_cast; omega
    · subst hx
      simp only [show ((1 : Int) == 1) = true from rfl]
      refine ⟨?_, ?_, ?_⟩
      · simp [h1]; ring
      · omega
      · push_cast; omega

theorem bit_value (o : IntOrganism) (hbits : ∀ x ∈ o, x = 0 ∨ x = 1)
    (hlen : o.length < 2 ^ 63) :
    IntOrganism.value o = o.sum ∧ IntOrganism.value o = (o.count 1 : Int) ∧
      0 ≤ IntOrganism.value o ∧ IntOrganism.value o ≤ o.length := by
  obtain ⟨h1, h2, h3⟩ := bit_sum o hbits
  have hl : (o.length : Int) < 2 ^ 63 := by exact_mod_cast hlen
  have hv : IntOrganism.value o = o.sum := by
    rw [value_eq_wrap_sum]
    exact wrapInt_of_range (by omega) (by omega)
  rw [hv]
  exact ⟨rfl, h1, h2, h3⟩

theorem crossover_inv (A B : IntOrganism) (g : Rng) (child : Organism) (g' : Rng)
    (h : IntOrganism.crossover A B g = .ok (child, g')) :
    A.length = B.length ∧ 1 ≤ A.length ∧
      child = A.take (g.draws.headD 0 % A.length) ++ B.drop (g.draws.headD 0 % A.length) ∧
      g' = ⟨g.draws.tail⟩ := by
  by_cases hl : A.length = B.length
  · by_cases h0 : A.length = 0
    · rw [crossover_empty A B g hl h0] at h
      cases h
    · rw [crossover_ok A B g hl (by omega)] at h
      simp only [Except.ok.injEq, Prod.mk.injEq] at h
      exact ⟨hl, by omega, h.1.symm, h.2.symm⟩
  · rw [crossover_mismatch A B g hl] at h
    cases h

theorem best_spec (organisms : Organisms) (b d : F32) (hne : organisms ≠ []) :
    ∃ best, (⟨organisms, b, d⟩ : Population).best = some best ∧ best ∈ organisms ∧
      ∀ o ∈ organisms, IntOrganism.value o ≤ IntOrganism.value best := by
  cases ho : organisms with
  | nil => exact absurd ho hne
  | cons first rest =>
    obtain ⟨pre, post, he, h1, h2⟩ := best_foldl rest [] [] first
      (by intro o h; cases h) (by intro o h; cases h)
    simp only [List.nil_append] at he
    refine ⟨_, rfl, ?_, ?_⟩
    · rw [he]; simp
    · intro o hmem
      rw [he] at hmem
      rcases List.mem_append.mp hmem with h | h
      · exact (h1 o h).le
      · rcases List.mem_cons.mp h with h | h
        · rw [h]
        · exact h2 o h

theorem best_value_perm {l1 l2 : Organisms} (h : l1.Perm l2) (b1 d1 b2 d2 : F32) :
    (⟨l1, b1, d1⟩ : Population).best.map IntOrganism.value
      = (⟨l2, b2, d2⟩ : Population).best.map IntOrganism.value := by
  by_cases hne : l1 = []
  · subst hne
    have : l2 = [] := List.Perm.eq_nil h.symm
    subst this
    rfl
  · have hne2 : l2 ≠ [] := by
      intro h2
      rw [h2] at h
      exact hne (List.Perm.eq_nil h)
    obtain ⟨x, hx, hxm, hxmax⟩ := best_spec l1 b1 d1 hne
    obtain ⟨y, hy, hym, hymax⟩ := best_spec l2 b2 d2 hne2
    rw [hx, hy]
    have h1 := hymax x (h.mem_iff.mp hxm)
    have h2 := hxmax y (h.mem_iff.mpr hym)
    simp only [Option.map_some']
    exact congrArg some (by omega)

theorem crossover_fault (A B : IntOrganism) (g : Rng) (e : Fault)
    (h : IntOrganism.crossover A B g = .error e) :
    e = Fault.lengthMismatch ∨ e = Fault.intnArg := by
  by_cases hl : A.length = B.length
  · by_cases h0 : A.length = 0
    · rw [crossover_empty A B g hl h0] at h
      cases h
      exact Or.inr rfl
    · rw [crossover_ok A B g hl (by omega)] at h
      cases h
  · rw [crossover_mismatch A B g hl] at h
    cases h
    exact Or.inl rfl

theorem rng_eta (g : Rng) : (⟨g.draws⟩ : Rng) = g := by
  cases g
  rfl

theorem breed_spec : ∀ (parents : Organisms) (g : Rng) (children : Organisms) (g' : Rng),
    breed parents g = .ok (children, g') →
    parents.length = 2 * children.length ∧ g' = ⟨g.draws.drop children.length⟩ ∧
    ∀ j, j < children.length → ∃ a b c,
      parents[2 * j]? = some a ∧ parents[2 * j + 1]? = some b ∧
      IntOrganism.crossover a b ⟨g.draws.drop j⟩ = .ok (c, ⟨g.draws.drop (j + 1)⟩) ∧
      children[j]? = some (IntOrganism.mutate c)
  | [], g, children, g', h => by
    simp only [breed, pure, Except.pure] at h
    cases h
    refine ⟨rfl, ?_, ?_⟩
    · simp only [List.length_nil, List.drop_zero]
    · intro j hj
      simp at hj
  | [_], g, children, g', h => by
    simp only [breed, throw, throwThe, MonadExceptOf.throw] at h
    cases h
  | p0 :: p1 :: rest, g, children, g', h => by
    simp only [breed, bind, Except.bind] at h
    cases hc : IntOrganism.crossover p0 p1 g with
    | error e => rw [hc] at h; cases h
    | ok v =>
      obtain ⟨child, g1⟩ := v
      rw [hc] at h
      simp only at h
      cases hb : breed rest g1 with
      | error e => rw [hb] at h; cases h
      | ok w =>
        obtain ⟨cs, g2⟩ := w
        rw [hb] at h
        simp only [pure, Except.pure] at h
        obtain ⟨hl, hg, hj⟩ := breed_spec rest g1 cs g2 hb
        obtain ⟨_, _, _, hg1⟩ := crossover_inv p0 p1 g child g1 hc
        cases h
        subst hg1
        refine ⟨?_, ?_, ?_⟩
        · simp only [List.length_cons, hl]
          omega
        · rw [hg]
          simp only [List.length_cons]
          congr 1
          show (g.draws.tail).drop cs.length = _
          rw [← List.drop_one, List.drop_drop, Nat.add_comm]
        · intro j hjlt
          cases j with
          | zero =>
            refine ⟨p0, p1, child, by simp, by simp, ?_, by simp⟩
            simp only [List.drop_zero, Nat.zero_add, List.drop_one]
            rw [rng_eta]
            exact hc
          | succ j =>
            obtain ⟨a, b, c, ha, hb', hcr, hch⟩ := hj j (by
              simp only [List.length_cons] at hjlt
              omega)
            refine ⟨a, b, c, ?_, ?_, ?_, ?_⟩
            · rw [show 2 * (j + 1) = 2 * j + 1 + 1 by ring]
              simpa using ha
            · rw [show 2 * (j + 1) + 1 = 2 * j + 1 + 1 + 1 by ring]
              simpa using hb'
            · have e1 : (g.draws.tail).drop j = g.draws.drop (j + 1) := by
                rw [← List.drop_one, List.drop_drop, Nat.add_comm]
              have e2 : (g.draws.tail).drop (j + 1) = g.draws.drop (j + 1 + 1) := by
                rw [← List.drop_one, List.drop_drop, Nat.add_comm]
              rw [← e1, ← e2]
              exact hcr
            · simpa using hch

theorem breed_fault : ∀ (parents : Organisms) (g : Rng) (e : Fault),
    parents.length % 2 = 0 → breed parents g = .error e →
    e = Fault.lengthMismatch ∨ e = Fault.intnArg
  | [], g, e, _, h => by
    simp only [breed, pure, Except.pure] at h
    cases h
  | [_], g, e, hev, _ => by
    simp at hev
  | p0 :: p1 :: rest, g, e, hev, h => by
    simp only [breed, bind, Except.bind] at h
    cases hc : IntOrganism.crossover p0 p1 g with
    | error e' =>
      rw [hc] at h
      cases h
      exact crossover_fault p0 p1 g _ hc
    | ok v =>
      obtain ⟨child, g1⟩ := v
      rw [hc] at h
      simp only at h
      cases hb : breed rest g1 with
      | error e' =>
        rw [hb] at h
        cases h
        exact breed_fault rest g1 _ (by
          simp only [List.length_cons] at hev
          omega) hb
      | ok w =>
        rw [hb] at h
        cases h

theorem breed_ok (L : Nat) (hL : 1 ≤ L) : ∀ (parents : Organisms) (g : Rng),
    parents.length % 2 = 0 → (∀ o ∈ parents, o.length = L) →
    ∃ children g', breed parents g = .ok (children, g')
  | [], g, _, _ => ⟨[], g, rfl⟩
  | [_], g, hev, _ => by
    simp at hev
  | p0 :: p1 :: rest, g, hev, hall => by
    have h0 : p0.length = L := hall p0 (by simp)
    have h1 : p1.length = L := hall p1 (by simp)
    have hc := crossover_ok p0 p1 g (by rw [h0, h1]) (by omega)
    obtain ⟨cs, g2, hb⟩ := breed_ok L hL rest ⟨g.draws.tail⟩ (by
      simp only [List.length_cons] at hev
      omega) (fun o ho => hall o (by simp [ho]))
    refine ⟨IntOrganism.mutate (p0.take (g.draws.headD 0 % p0.length) ++
      p1.drop (g.draws.headD 0 % p0.length)) :: cs, g2, ?_⟩
    simp only [breed, bind, Except.bind, hc, hb]
    rfl

theorem mul_length_le_sum (f : Organism → Int) (r : Int) (l : Organisms)
    (h : ∀ s ∈ l, r ≤ f s) : r * l.length ≤ (l.map f).sum := by
  induction l with
  | nil => simp
  | cons x xs ih =>
    have h1 := h x (List.mem_cons_self _ _)
    have h2 := ih (fun s hs => h s (List.mem_cons_of_mem _ hs))
    rw [List.map_cons, List.sum_cons, List.length_cons]
    push_cast
    nlinarith

theorem low_sum_mul_le (f : Organism → Int) (low high : Organisms)
    (h : ∀ r ∈ low, ∀ s ∈ high, f r ≤ f s) :
    (low.map f).sum * high.length ≤ (high.map f).sum * low.length := by
  induction low with
  | nil => simp
  | cons x xs ih =>
    have h1 := mul_length_le_sum f (f x) high (fun s hs => h x (List.mem_cons_self _ _) s hs)
    have h2 := ih (fun r hr s hs => h r (List.mem_cons_of_mem _ hr) s hs)
    rw [List.map_cons, List.sum_cons, List.length_cons]
    push_cast
    nlinarith

theorem abs_sum_le (f : Organism → Int) (l : Organisms) :
    -(((l.map (fun o => (f o).natAbs)).sum : Nat) : Int) ≤ (l.map f).sum ∧
      (l.map f).sum ≤ (((l.map (fun o => (f o).natAbs)).sum : Nat) : Int) := by
  induction l with
  | nil => simp
  | cons x xs ih =>
    obtain ⟨h1, h2⟩ := ih
    have hx1 : f x ≤ ((f x).natAbs : Int) := by omega
    have hx2 : -((f x).natAbs : Int) ≤ f x := by omega
    rw [List.map_cons, List.sum_cons, List.map_cons, List.sum_cons, Nat.cast_add]
    constructor <;> omega

theorem sum_nonneg_of (f : Organism → Int) (l : Organisms) (h : ∀ o ∈ l, 0 ≤ f o) :
    0 ≤ (l.map f).sum := by
  have := mul_length_le_sum f 0 l h
  omega

theorem sort_replicate (S : SortAlg) (less : Organism → Organism → Bool) (n : Nat)
    (x : Organism) : S.sort less (List.replicate n x) = List.replicate n x :=
  List.perm_replicate.mp (S.perm less (List.replicate n x))

theorem swapAt_perm {s s' : Organisms} {i j : Nat} (h : swapAt s i j = .ok s') :
    s'.Perm s := by
  unfold swapAt at h
  rcases Nat.lt_or_ge i s.length with hi | hi
  · rcases Nat.lt_or_ge j s.length with hj | hj
    · rw [List.getElem?_eq_getElem hi, List.getElem?_eq_getElem hj] at h
      simp only [Except.ok.injEq] at h
      rw [← h]
      exact set_set_perm s hi hj
    · rw [List.getElem?_eq_getElem hi, List.getElem?_eq_none hj] at h
      cases h
  · rw [List.getElem?_eq_none hi] at h
    cases h

theorem shuffleLoop_perm : ∀ (n i : Nat) (l : Organisms) (g : Rng) (l' : Organisms) (g' : Rng),
    shuffleLoop n i l g = .ok (l', g') → l'.Perm l
  | 0, _, l, g, l', g', h => by
    simp only [shuffleLoop, pure, Except.pure, Except.ok.injEq, Prod.mk.injEq] at h
    rw [← h.1]
  | n + 1, i, l, g, l', g', h => by
    simp only [shuffleLoop, bind, Except.bind] at h
    cases hj : Rng.Intn g ((i : Int) + 1) with
    | error e => rw [hj] at h; cases h
    | ok r =>
      rw [hj] at h
      obtain ⟨j, g1⟩ := r
      simp only at h
      cases hs : swapAt l i j.toNat with
      | error e => rw [hs] at h; cases h
      | ok s =>
        rw [hs] at h
        simp only at h
        exact (shuffleLoop_perm n (i + 1) s g1 l' g' h).trans (swapAt_perm hs)

theorem selectParents_perm [Platform] (S : SortAlg) (p : Population) (g : Rng)
    {parents : Organisms} {p1 : Population} {g1 : Rng}
    (hsel : p.selectParents S g = .ok (parents, p1, g1)) :
    p1.organisms.Perm p.organisms ∧ p1.birthRate = p.birthRate ∧
      p1.deathRate = p.deathRate := by
  cases hn : p.numParents with
  | error e =>
    unfold Population.selectParents at hsel
    rw [hn] at hsel
    cases hsel
  | ok n =>
    unfold Population.selectParents at hsel
    rw [hn] at hsel
    simp only [bind, Except.bind] at hsel
    split_ifs at hsel with hc
    cases hsh : shuffleLoop ((S.sort ReverseSort.Less p.organisms).take n.toNat).length 0
        ((S.sort ReverseSort.Less p.organisms).take n.toNat) g with
    | error e => rw [hsh] at hsel; cases hsel
    | ok r =>
      rw [hsh] at hsel
      obtain ⟨mf, g2⟩ := r
      simp only [pure, Except.pure, Except.ok.injEq, Prod.mk.injEq] at hsel
      obtain ⟨_, hp1, _⟩ := hsel
      rw [← hp1]
      refine ⟨?_, rfl, rfl⟩
      show (mf ++ (S.sort ReverseSort.Less p.organisms).drop n.toNat).Perm p.organisms
      refine (List.Perm.append_right _ (shuffleLoop_perm _ _ _ _ _ _ hsh)).trans ?_
      rw [List.take_append_drop]
      exact S.perm _ _

theorem breedAndCull_of_ok [Platform] (S : SortAlg) (p : Population) (g : Rng)
    {parents children : Organisms} {p1 : Population} {g1 g2 : Rng} {k : Nat}
    (hsel : p.selectParents S g = .ok (parents, p1, g1))
    (hbreed : breed parents g1 = .ok (children, g2))
    (hk : p.numToKill = .ok (k : Int)) (hkP : k ≤ p.organisms.length) :
    p.breedAndCull S g = .ok
      ({ p1 with organisms := (S.sort Organisms.Less p1.organisms).drop k ++ children },
        g2, (children.length : Int), (k : Int)) := by
  obtain ⟨hperm, _, hd1⟩ := selectParents_perm S p g hsel
  have hk1 : p1.numToKill = .ok (k : Int) := by
    rw [numToKill_congr hperm.length_eq hd1]; exact hk
  have hsl : (S.sort Organisms.Less p1.organisms).length = p.organisms.length :=
    ((S.perm _ _).trans hperm).length_eq
  have hc : ¬ ((k : Int) < 0 ∨ (k : Int) > ((S.sort Organisms.Less p1.organisms).length : Nat)) := by
    rw [hsl]; omega
  simp only [Population.breedAndCull, hsel, bind, Except.bind, hbreed,
    Population.killWeakestOrganisms, hk1, Int.toNat_ofNat, if_neg hc]
  rfl


theorem numParents_even [Platform] {p : Population} {n : Int} (h : p.numParents = .ok n) :
    n % 2 = 0 := by
  unfold Population.numParents at h
  cases hm : F32.toInt (F32.mul (F32.ofInt p.organisms.length) p.birthRate) with
  | error e => rw [hm] at h; cases h
  | ok m =>
    rw [hm] at h
    simp only [bind, Except.bind, pure, Except.pure] at h
    split_ifs at h with hc
    · simp only [Except.ok.injEq] at h
      rw [← h]
      unfold wrapInt
      omega
    · simp only [Except.ok.injEq] at h
      rw [← h]
      unfold wrapInt
      omega

theorem selectParents_pool [Platform] (S : SortAlg) (p : Population) (g : Rng)
    {parents : Organisms} {p1 : Population} {g1 : Rng}
    (hsel : p.selectParents S g = .ok (parents, p1, g1)) :
    parents.length % 2 = 0 ∧ parents.length ≤ p.organisms.length := by
  cases hn : p.numParents with
  | error e =>
    unfold Population.selectParents at hsel
    rw [hn] at hsel
    cases hsel
  | ok n =>
    have heven := numParents_even hn
    unfold Population.selectParents at hsel
    rw [hn] at hsel
    simp only [bind, Except.bind] at hsel
    split_ifs at hsel with hc
    cases hsh : shuffleLoop ((S.sort ReverseSort.Less p.organisms).take n.toNat).length 0
        ((S.sort ReverseSort.Less p.organisms).take n.toNat) g with
    | error e => rw [hsh] at hsel; cases hsel
    | ok r =>
      rw [hsh] at hsel
      obtain ⟨mf, g2⟩ := r
      simp only [pure, Except.pure, Except.ok.injEq, Prod.mk.injEq] at hsel
      obtain ⟨hp, _, _⟩ := hsel
      have hsl : (S.sort ReverseSort.Less p.organisms).length = p.organisms.length :=
        (S.perm _ _).length_eq
      have hmf : mf.length = n.toNat := by
        rw [(shuffleLoop_perm _ _ _ _ _ _ hsh).length_eq, List.length_take]
        omega
      have hpl : parents.length = n.toNat := by
        rw [← hp, List.length_take, List.length_append]
        omega
      rw [hpl]
      omega

theorem wrapInt_range (x : Int) : -(2 ^ 63) ≤ wrapInt x ∧ wrapInt x < 2 ^ 63 := by
  unfold wrapInt
  omega

theorem toInt_total [Platform] (x : F32) :
    ∃ m : Int, F32.toInt x = .ok m ∧ -(2 ^ 63) ≤ m ∧ m < 2 ^ 63 := by
  cases x with
  | finite neg k =>
    by_cases hc : -(2 ^ 63) ≤ (if neg = true then -((k / 2 ^ 149 : Nat) : Int)
        else ((k / 2 ^ 149 : Nat) : Int)) ∧
        (if neg = true then -((k / 2 ^ 149 : Nat) : Int) else ((k / 2 ^ 149 : Nat) : Int))
          < 2 ^ 63
    · exact ⟨_, if_pos hc, hc.1, hc.2⟩
    · exact ⟨_, if_neg hc, wrapInt_range _⟩
  | inf s => exact ⟨_, rfl, wrapInt_range _⟩
  | nan => exact ⟨_, rfl, wrapInt_range _⟩

theorem numToKill_clamp [Platform] (p : Population) :
    ∃ m : Int, F32.toInt (F32.mul (F32.ofInt p.organisms.length) p.deathRate) = .ok m ∧
      -(2 ^ 63) ≤ m ∧ m < 2 ^ 63 ∧
      p.numToKill = .ok (min m (p.organisms.length : Int)) := by
  obtain ⟨m, hm, h1, h2⟩ :=
    toInt_total (F32.mul (F32.ofInt p.organisms.length) p.deathRate)
  refine ⟨m, hm, h1, h2, ?_⟩
  simp only [Population.numToKill, hm, bind, Except.bind]
  by_cases hc : m > (p.organisms.length : Int)
  · rw [if_pos hc]
    exact congrArg Except.ok (by omega)
  · rw [if_neg hc]
    exact congrArg Except.ok (by omega)

theorem numParents_clamp [Platform] (p : Population) (hlen : p.organisms.length < maxLen) :
    ∃ m : Int, F32.toInt (F32.mul (F32.ofInt p.organisms.length) p.birthRate) = .ok m ∧
      -(2 ^ 63) ≤ m ∧ m < 2 ^ 63 ∧
      p.numParents = .ok (if wrapInt (m * 2) > (p.organisms.length : Int)
        then ((2 * (p.organisms.length / 2) : Nat) : Int) else wrapInt (m * 2)) := by
  obtain ⟨m, hm, h1, h2⟩ :=
    toInt_total (F32.mul (F32.ofInt p.organisms.length) p.birthRate)
  refine ⟨m, hm, h1, h2, ?_⟩
  have h59 : (2 : Nat) ^ 59 = 576460752303423488 := by norm_num
  unfold maxLen at hlen
  simp only [Population.numParents, hm, bind, Except.bind]
  generalize p.organisms.length = P at hlen ⊢
  have hw2 : wrapInt (Int.tdiv (P : Int) 2 * 2) = ((2 * (P / 2) : Nat) : Int) := by
    rw [Int.tdiv_eq_ediv (by omega) (by omega), wrapInt_of_range] <;> omega
  rw [hw2]
  by_cases hc : wrapInt (m * 2) > (P : Int)
  · rw [if_pos hc, if_pos hc]; rfl
  · rw [if_neg hc, if_neg hc]; rfl

theorem toInt_mul_of_lt [Platform] {P k : Nat} (hP : P < maxLen)
    (h63 : truncMul P k < 2 ^ 63) :
    F32.toInt (F32.mul (F32.ofInt (P : Int)) (F32.finite false k))
      = .ok (truncMul P k : Int) := by
  have hp149 : 0 < 2 ^ 149 := by positivity
  rw [(ofInt_len hP).1]
  have hlt : ¬ (2 ^ 277 ≤ roundScaled (roundScaled P 0 * k) 298) := by
    intro hge
    have h1 : 2 ^ 63 * 2 ^ 149 ≤ roundScaled (roundScaled P 0 * k) 298 := by
      refine le_trans ?_ hge
      rw [← pow_add]
      exact Nat.pow_le_pow_right (by norm_num) (by norm_num)
    have h2 : 2 ^ 63 ≤ truncMul P k := by
      unfold truncMul
      exact (Nat.le_div_iff_mul_le hp149).mpr h1
    omega
  have e : F32.mul (F32.finite false (roundScaled P 0)) (F32.finite false k)
      = F32.finite false (roundScaled (roundScaled P 0 * k) 298) := by
    show F32.ofScaled (xor false false) (roundScaled P 0 * k) 298 = _
    unfold F32.ofScaled
    rw [Bool.false_xor]
    exact if_neg hlt
  rw [e, toInt_finite false _ h63]
  rfl

theorem truncMul_zero_left (k : Nat) : truncMul 0 k = 0 := by
  unfold truncMul
  rw [roundScaled_zero, Nat.zero_mul, roundScaled_zero]
  exact Nat.zero_div _

theorem selectParents_negative [Platform] (S : SortAlg) (p : Population) (g : Rng) {n : Int}
    (hn : p.numParents = .ok n) (hneg : n < 0) :
    p.selectParents S g = .error Fault.outOfRange := by
  unfold Population.selectParents
  rw [hn]
  simp only [bind, Except.bind]
  rw [if_pos (Or.inl hneg)]

theorem afterGeneration_of_ok [Platform] (S : SortAlg) (p : Population) (g : Rng) (i : Int)
    {r : Population × Rng × List Line} (h : p.generation S g i = .ok r) :
    p.afterGeneration S g = r.1 := by
  unfold Population.generation Population.breedAndCull at h
  unfold Population.afterGeneration
  cases hsel : p.selectParents S g with
  | error e => rw [hsel] at h; cases h
  | ok t =>
    obtain ⟨parents, p1, g1⟩ := t
    rw [hsel] at h
    simp only [bind, Except.bind] at h
    cases hbreed : breed parents g1 with
    | error e => rw [hbreed] at h; cases h
    | ok c =>
      obtain ⟨children, g2⟩ := c
      rw [hbreed] at h
      simp only at h
      cases hkill : p1.killWeakestOrganisms S with
      | error e => rw [hkill] at h; cases h
      | ok u =>
        obtain ⟨numKilled, p2⟩ := u
        rw [hkill] at h
        simp only [pure, Except.pure] at h
        cases hrep : Population.report { p2 with organisms := p2.organisms ++ children } i with
        | error e => rw [hrep] at h; cases h
        | ok line =>
          rw [hrep] at h
          simp only [Except.ok.injEq] at h
          rw [← h]
          simp only [hbreed, hkill]

theorem afterEvolveLoop_of_ok [Platform] (S : SortAlg) : ∀ (n : Nat) (i : Int) (p : Population)
    (g : Rng) (out : List Line) (r : Population × Rng × List Line),
    evolveLoop S n i p g out = .ok r → afterEvolveLoop S n i p g = r.1
  | 0, _, p, g, out, r, h => by
    simp only [evolveLoop, pure, Except.pure, Except.ok.injEq] at h
    rw [← h]
    rfl
  | n + 1, i, p, g, out, r, h => by
    cases hgen : p.generation S g i with
    | error e =>
      rw [evolveLoop, hgen] at h
      cases h
    | ok t =>
      obtain ⟨p1, g1, lines⟩ := t
      rw [evolveLoop, hgen] at h
      rw [afterEvolveLoop, hgen]
      show afterEvolveLoop S n (i + 1) p1 g1 = r.1
      exact afterEvolveLoop_of_ok S n (i + 1) p1 g1 _ r h

theorem afterEvolve_of_ok [Platform] (S : SortAlg) (p : Population) (iters : Int) (g : Rng)
    {r : Population × Rng × List Line} (h : p.evolve S iters g = .ok r) :
    p.afterEvolve S iters g = r.1 := by
  unfold Population.evolve at h
  unfold Population.afterEvolve
  cases hrep : p.report 0 with
  | error e => rw [hrep] at h; cases h
  | ok line =>
    rw [hrep] at h
    simp only [bind, Except.bind] at h
    exact afterEvolveLoop_of_ok S _ _ _ _ _ _ h

theorem selectParents_fault [Platform] (S : SortAlg) (p : Population) (g : Rng)
    (hlen : p.organisms.length < maxLen) {e : Fault}
    (h : p.selectParents S g = .error e) :
    e = Fault.outOfRange ∧ ∃ n : Int, p.numParents = .ok n ∧ n < 0 := by
  obtain ⟨m, _, _, _, hnum⟩ := numParents_clamp p hlen
  have hsl : (S.sort ReverseSort.Less p.organisms).length = p.organisms.length :=
    (S.perm _ _).length_eq
  have hle : (if wrapInt (m * 2) > (p.organisms.length : Int)
      then ((2 * (p.organisms.length / 2) : Nat) : Int) else wrapInt (m * 2))
        ≤ (p.organisms.length : Int) := by
    split_ifs <;> omega
  generalize (if wrapInt (m * 2) > (p.organisms.length : Int)
      then ((2 * (p.organisms.length / 2) : Nat) : Int) else wrapInt (m * 2)) = n
    at hnum hle
  unfold Population.selectParents at h
  rw [hnum] at h
  simp only [bind, Except.bind] at h
  by_cases hc : n < 0 ∨ n > ((S.sort ReverseSort.Less p.organisms).length : Nat)
  · rw [if_pos hc] at h
    have he : e = Fault.outOfRange := by
      cases h
      rfl
    refine ⟨he, n, hnum, ?_⟩
    rw [hsl] at hc
    omega
  · rw [if_neg hc] at h
    obtain ⟨l, g1, hsh, _⟩ := shuffleLoop_ok
      ((S.sort ReverseSort.Less p.organisms).take n.toNat).length 0
      ((S.sort ReverseSort.Less p.organisms).take n.toNat) g (by omega)
    rw [hsh] at h
    cases h

theorem killWeakestOrganisms_fault [Platform] (S : SortAlg) (p : Population) {e : Fault}
    (h : p.killWeakestOrganisms S = .error e) :
    e = Fault.outOfRange ∧ ∃ n : Int, p.numToKill = .ok n ∧ n < 0 := by
  obtain ⟨m, _, _, _, hnum⟩ := numToKill_clamp p
  have hsl : (S.sort Organisms.Less p.organisms).length = p.organisms.length :=
    (S.perm _ _).length_eq
  have hle : min m (p.organisms.length : Int) ≤ (p.organisms.length : Int) := by omega
  generalize min m (p.organisms.length : Int) = n at hnum hle
  unfold Population.killWeakestOrganisms at h
  rw [hnum] at h
  simp only [bind, Except.bind] at h
  by_cases hc : n < 0 ∨ n > ((S.sort Organisms.Less p.organisms).length : Nat)
  · rw [if_pos hc] at h
    have he : e = Fault.outOfRange := by
      cases h
      rfl
    refine ⟨he, n, hnum, ?_⟩
    rw [hsl] at hc
    omega
  · rw [if_neg hc] at h
    cases h

/-! ## The claims -/

/-- C1: for a population of any size (a slice length, below `maxLen`) and a birth
rate in `[0,1]`, `numParents()` returns an even number between `0` and the
population size, so that the slice `organisms[:numParents]` of `selectParents` is
in range and `selectParents` returns. -/
theorem numParents_even_le [Platform] (p : Population) (hlen : p.organisms.length < maxLen)
    (hb : p.birthRate.InUnit) :
    ∃ n : Int, p.numParents = .ok n ∧ n % 2 = 0 ∧ 0 ≤ n ∧ n ≤ p.organisms.length ∧
      ∀ (S : SortAlg) (g : Rng), ∃ r, p.selectParents S g = .ok r := by
  obtain ⟨N, h, heven, hle⟩ := numParents_spec hlen hb
  refine ⟨N, h, by omega, by omega, by omega, ?_⟩
  intro S g
  obtain ⟨_, _, _, _, _, _, hsel, _, _⟩ := selectParents_spec S p g hlen hb
  exact ⟨_, hsel⟩

/-- C1 at the seed population of the end-to-end scenario. -/
theorem numParents_even_le_witness :
    seedPopulation.organisms.length < maxLen ∧ seedPopulation.birthRate.InUnit ∧
    ∃ n : Int, seedPopulation.numParents = .ok n ∧ n % 2 = 0 ∧ 0 ≤ n ∧
      n ≤ seedPopulation.organisms.length ∧
      ∀ (S : SortAlg) (g : Rng), ∃ r, seedPopulation.selectParents S g = .ok r :=
  ⟨by decide, by decide, numParents_even_le seedPopulation (by decide) (by decide)⟩

/-- C2, as stated, fails: for ten organisms and the death rate `float32(0.7)`
(`11744051 * 2^-24`, a binary32 value in `[0,1]`) `numToKill()` is `7`, while
`floor(d * P)` capped at `P` is `6`. -/
theorem numToKill_floor_counterexample :
    F32.Representable (11744051 * 2 ^ 125) ∧ tenOrganisms.deathRate.InUnit ∧
    tenOrganisms.organisms.length = 10 ∧
    tenOrganisms.numToKill = .ok 7 ∧
    specNumToKill tenOrganisms.deathRate tenOrganisms.organisms.length = 6 ∧
    tenOrganisms.numToKill ≠
      .ok (specNumToKill tenOrganisms.deathRate tenOrganisms.organisms.length) := by
  decide

/-- C2, amended: for a population of size `P` and a death rate `d` in `[0,1]`,
`numToKill()` is the integer part of the binary32 product `float32(P) * d`, capped at
`P`; it lies between `0` and `P`; for `P < 2^24` it is `floor(d * P)` or
`floor(d * P) + 1`; and `P = 4`, `d = 0.5` gives `2`. -/
theorem numToKill_bounds [Platform] (p : Population) (hlen : p.organisms.length < maxLen)
    (hd : p.deathRate.InUnit) :
    ∃ n m : Int, p.numToKill = .ok n ∧ 0 ≤ n ∧ n ≤ p.organisms.length ∧
      F32.toInt (F32.mul (F32.ofInt p.organisms.length) p.deathRate) = .ok m ∧
      n = min m p.organisms.length ∧
      (p.organisms.length < 2 ^ 24 →
        F32.floorMul p.deathRate p.organisms.length ≤ n ∧
        n ≤ F32.floorMul p.deathRate p.organisms.length + 1) ∧
      seedPopulation.numToKill = .ok 2 := by
  cases hr : p.deathRate with
  | finite neg k =>
    rw [hr] at hd
    refine ⟨_, _, numToKill_eq hlen hr hd, by omega, by omega, toInt_mul_ofInt hlen hd,
      by omega, ?_,
      (numToKill_eq (show seedPopulation.organisms.length < maxLen by decide)
        (show seedPopulation.deathRate = F32.finite false (2 ^ 148) from rfl)
        (by decide)).trans (by decide)⟩
    intro hsmall
    obtain ⟨hk, hneg⟩ := hd
    obtain ⟨h1, h2⟩ := truncMul_floor hsmall hk
    have hfl : F32.floorMul (F32.finite neg k) p.organisms.length
        = ((p.organisms.length * k / 2 ^ 149 : Nat) : Int) := by
      rcases hneg with hneg | hk0
      · subst hneg
        rw [Nat.mul_comm]
        simp only [F32.floorMul]
        norm_cast
      · subst hk0
        cases neg <;> simp [F32.floorMul]
    have hfP : p.organisms.length * k / 2 ^ 149 ≤ p.organisms.length :=
      Nat.div_le_of_le_mul (by rw [Nat.mul_comm]; exact Nat.mul_le_mul_right _ hk)
    rw [hfl]
    omega
  | inf s => rw [hr] at hd; exact hd.elim
  | nan => rw [hr] at hd; exact hd.elim

/-- C2, amended, at the seed population of the end-to-end scenario. -/
theorem numToKill_bounds_witness :
    seedPopulation.organisms.length < maxLen ∧ seedPopulation.deathRate.InUnit ∧
    ∃ n m : Int, seedPopulation.numToKill = .ok n ∧ 0 ≤ n ∧
      n ≤ seedPopulation.organisms.length ∧
      F32.toInt (F32.mul (F32.ofInt seedPopulation.organisms.length)
        seedPopulation.deathRate) = .ok m ∧
      n = min m seedPopulation.organisms.length ∧
      (seedPopulation.organisms.length < 2 ^ 24 →
        F32.floorMul seedPopulation.deathRate seedPopulation.organisms.length ≤ n ∧
        n ≤ F32.floorMul seedPopulation.deathRate seedPopulation.organisms.length + 1) ∧
      seedPopulation.numToKill = .ok 2 :=
  ⟨by decide, by decide, numToKill_bounds seedPopulation (by decide) (by decide)⟩

/-- C3: for a population (of a size below `maxLen`), a birth rate in `[0,1]` and any
script of random draws, `selectParents()` returns exactly `numParents()` organisms;
they are a permutation of the first `numParents()` organisms of the population sorted
by descending fitness, the storage afterwards is the parents followed by the
organisms not returned, and every parent is at least as fit as every organism not
returned. -/
theorem selectParents_top [Platform] (S : SortAlg) (p : Population) (g : Rng)
    (hlen : p.organisms.length < maxLen) (hb : p.birthRate.InUnit) :
    ∃ (n : Nat) (parents rest : Organisms) (p' : Population) (g' : Rng),
      p.numParents = .ok (n : Int) ∧
      p.selectParents S g = .ok (parents, p', g') ∧
      parents.length = n ∧
      List.Pairwise (fun x y => IntOrganism.value y ≤ IntOrganism.value x)
        (S.sort ReverseSort.Less p.organisms) ∧
      parents.Perm ((S.sort ReverseSort.Less p.organisms).take n) ∧
      p'.organisms = parents ++ rest ∧
      (parents ++ rest).Perm p.organisms ∧
      ∀ a ∈ parents, ∀ b ∈ rest, IntOrganism.value b ≤ IntOrganism.value a := by
  obtain ⟨N, parents, g', hN, _, _, hsel, hperm, hl⟩ := selectParents_spec S p g hlen hb
  have hsorted : List.Pairwise (fun x y => IntOrganism.value y ≤ IntOrganism.value x)
      (S.sort ReverseSort.Less p.organisms) := by
    refine (S.sorted ReverseSort.Less p.organisms strictWeak_reverse).imp ?_
    intro x y h
    simp only [ReverseSort.Less, Organisms.Less, decide_eq_false_iff_not] at h
    omega
  refine ⟨N, parents, (S.sort ReverseSort.Less p.organisms).drop N, _, g', hN, hsel, hl,
    hsorted, hperm, rfl, ?_, ?_⟩
  · refine (List.Perm.append_right _ hperm).trans ?_
    rw [List.take_append_drop]
    exact S.perm _ _
  · intro a ha b hb'
    exact hsorted.rel_of_mem_take_of_mem_drop (hperm.mem_iff.mp ha) hb'

/-- C3 at the seed population, sorted by insertion sort, for the draws 0, 0, 1, 2. -/
theorem selectParents_top_witness :
    seedPopulation.organisms.length < maxLen ∧ seedPopulation.birthRate.InUnit ∧
    ∃ (n : Nat) (parents rest : Organisms) (p' : Population) (g' : Rng),
      seedPopulation.numParents = .ok (n : Int) ∧
      seedPopulation.selectParents insertionSortAlg ⟨[0, 0, 1, 2]⟩ = .ok (parents, p', g') ∧
      parents.length = n ∧
      List.Pairwise (fun x y => IntOrganism.value y ≤ IntOrganism.value x)
        (insertionSortAlg.sort ReverseSort.Less seedPopulation.organisms) ∧
      parents.Perm ((insertionSortAlg.sort ReverseSort.Less seedPopulation.organisms).take n) ∧
      p'.organisms = parents ++ rest ∧
      (parents ++ rest).Perm seedPopulation.organisms ∧
      ∀ a ∈ parents, ∀ b ∈ rest, IntOrganism.value b ≤ IntOrganism.value a :=
  ⟨by decide, by decide,
    selectParents_top insertionSortAlg seedPopulation ⟨[0, 0, 1, 2]⟩ (by decide) (by decide)⟩

/-- C4: for a population of size `P` (below `maxLen`) and a death rate in `[0,1]`,
`killWeakestOrganisms()` returns `k = numToKill()` of the population before culling
and leaves `P - k` organisms; the removed organisms together with the survivors are a
permutation of the original organisms, and every survivor is at least as fit as
every removed organism. -/
theorem killWeakestOrganisms_removes_lowest [Platform] (S : SortAlg) (p : Population)
    (hlen : p.organisms.length < maxLen) (hd : p.deathRate.InUnit) :
    ∃ (k : Nat) (removed : Organisms) (p' : Population),
      p.numToKill = .ok (k : Int) ∧
      p.killWeakestOrganisms S = .ok ((k : Int), p') ∧
      removed.length = k ∧
      p'.organisms.length = p.organisms.length - k ∧
      k ≤ p.organisms.length ∧
      (removed ++ p'.organisms).Perm p.organisms ∧
      (∀ s ∈ p'.organisms, ∀ r ∈ removed, IntOrganism.value r ≤ IntOrganism.value s) ∧
      p'.birthRate = p.birthRate ∧ p'.deathRate = p.deathRate := by
  obtain ⟨K, hK, hle, hkill⟩ := killWeakestOrganisms_spec S p hlen hd
  have hsl : (S.sort Organisms.Less p.organisms).length = p.organisms.length :=
    (S.perm _ _).length_eq
  have hsorted : List.Pairwise (fun x y => IntOrganism.value x ≤ IntOrganism.value y)
      (S.sort Organisms.Less p.organisms) := by
    refine (S.sorted Organisms.Less p.organisms strictWeak_less).imp ?_
    intro x y h
    simp only [Organisms.Less, decide_eq_false_iff_not] at h
    omega
  refine ⟨K, (S.sort Organisms.Less p.organisms).take K, _, hK, hkill, ?_, ?_, hle, ?_, ?_,
    rfl, rfl⟩
  · rw [List.length_take, hsl]; omega
  · show ((S.sort Organisms.Less p.organisms).drop K).length = _
    rw [List.length_drop, hsl]
  · show ((S.sort Organisms.Less p.organisms).take K ++
      (S.sort Organisms.Less p.organisms).drop K).Perm _
    rw [List.take_append_drop]
    exact S.perm _ _
  · intro s hs r hr
    exact hsorted.rel_of_mem_take_of_mem_drop hr hs

/-- C4 at the seed population, sorted by insertion sort. -/
theorem killWeakestOrganisms_removes_lowest_witness :
    seedPopulation.organisms.length < maxLen ∧ seedPopulation.deathRate.InUnit ∧
    ∃ (k : Nat) (removed : Organisms) (p' : Population),
      seedPopulation.numToKill = .ok (k : Int) ∧
      seedPopulation.killWeakestOrganisms insertionSortAlg = .ok ((k : Int), p') ∧
      removed.length = k ∧
      p'.organisms.length = seedPopulation.organisms.length - k ∧
      k ≤ seedPopulation.organisms.length ∧
      (removed ++ p'.organisms).Perm seedPopulation.organisms ∧
      (∀ s ∈ p'.organisms, ∀ r ∈ removed, IntOrganism.value r ≤ IntOrganism.value s) ∧
      p'.birthRate = seedPopulation.birthRate ∧ p'.deathRate = seedPopulation.deathRate :=
  ⟨by decide, by decide,
    killWeakestOrganisms_removes_lowest insertionSortAlg seedPopulation (by decide) (by decide)⟩

/-- C5: for bit strings `A` and `B` of one length `L >= 1` and any script of random
draws, `A.crossover(B)` succeeds with a split index `i` in `[0, L)`; the child has
length `L`, its genes at positions `[0, i)` are those of `A` and its genes at
positions `[i, L)` are those of `B`.  Every `i` in `[0, L)` is the split index of
some script. -/
theorem crossover_structural_split (A B : IntOrganism) (g : Rng)
    (hlen : A.length = B.length) (hpos : 1 ≤ A.length) :
    (∃ (i : Nat) (child : IntOrganism) (g' : Rng),
      i = g.draws.headD 0 % A.length ∧ i < A.length ∧
      IntOrganism.crossover A B g = .ok (child, g') ∧
      child.length = A.length ∧
      (∀ j, j < i → child[j]? = A[j]?) ∧
      (∀ j, i ≤ j → j < A.length → child[j]? = B[j]?)) ∧
    (∀ i, i < A.length → ∀ draws : List Nat,
      IntOrganism.crossover A B ⟨i :: draws⟩ = .ok (A.take i ++ B.drop i, ⟨draws⟩)) := by
  constructor
  · have hi : g.draws.headD 0 % A.length < A.length := Nat.mod_lt _ (by omega)
    refine ⟨_, _, _, rfl, hi, crossover_ok A B g hlen (by omega), ?_, ?_, ?_⟩
    · rw [List.length_append, List.length_take, List.length_drop]; omega
    · intro j hj
      rw [List.getElem?_append_left (by rw [List.length_take]; omega),
        List.getElem?_take_of_lt hj]
    · intro j hij hj
      rw [List.getElem?_append_right (by rw [List.length_take]; omega), List.length_take,
        List.getElem?_drop]
      congr 1
      omega
  · intro i hi draws
    have h := crossover_ok A B ⟨i :: draws⟩ hlen (by omega)
    simp only [List.headD_cons, Nat.mod_eq_of_lt hi, List.tail_cons] at h
    exact h

/-- C5 at the bit strings 110 and 001 for the raw draw 7. -/
theorem crossover_structural_split_witness :
    ([1, 1, 0] : IntOrganism).length = ([0, 0, 1] : IntOrganism).length ∧
    1 ≤ ([1, 1, 0] : IntOrganism).length ∧
    ((∃ (i : Nat) (child : IntOrganism) (g' : Rng),
      i = (⟨[7]⟩ : Rng).draws.headD 0 % ([1, 1, 0] : IntOrganism).length ∧
      i < ([1, 1, 0] : IntOrganism).length ∧
      IntOrganism.crossover [1, 1, 0] [0, 0, 1] ⟨[7]⟩ = .ok (child, g') ∧
      child.length = ([1, 1, 0] : IntOrganism).length ∧
      (∀ j, j < i → child[j]? = ([1, 1, 0] : IntOrganism)[j]?) ∧
      (∀ j, i ≤ j → j < ([1, 1, 0] : IntOrganism).length →
        child[j]? = ([0, 0, 1] : IntOrganism)[j]?)) ∧
    (∀ i, i < ([1, 1, 0] : IntOrganism).length → ∀ draws : List Nat,
      IntOrganism.crossover [1, 1, 0] [0, 0, 1] ⟨i :: draws⟩ =
        .ok (([1, 1, 0] : IntOrganism).take i ++ ([0, 0, 1] : IntOrganism).drop i, ⟨draws⟩))) :=
  ⟨by decide, by decide, crossover_structural_split [1, 1, 0] [0, 0, 1] ⟨[7]⟩ (by decide) (by decide)⟩

/-- C6: for bit strings of different lengths (an empty one included) and any script
of random draws, `crossover` stops with the invalid-argument panic and returns no
child. -/
theorem crossover_length_mismatch (A B : IntOrganism) (g : Rng)
    (hlen : A.length ≠ B.length) :
    IntOrganism.crossover A B g = .error Fault.lengthMismatch ∧
    ∀ child g', IntOrganism.crossover A B g ≠ .ok (child, g') := by
  have h := crossover_mismatch A B g hlen
  refine ⟨h, ?_⟩
  intro child g' hc
  rw [h] at hc
  cases hc

/-- C6 at a bit string of length 2 and the empty bit string. -/
theorem crossover_length_mismatch_witness :
    ([1, 0] : IntOrganism).length ≠ ([] : IntOrganism).length ∧
    (IntOrganism.crossover [1, 0] [] ⟨[3]⟩ = .error Fault.lengthMismatch ∧
    ∀ child g', IntOrganism.crossover [1, 0] [] ⟨[3]⟩ ≠ .ok (child, g')) :=
  ⟨by decide, crossover_length_mismatch [1, 0] [] ⟨[3]⟩ (by decide)⟩

/-- C7: for a non-empty population `best()` returns an organism of the population
whose fitness is at least that of every organism in it, and every organism stored
before it is strictly less fit (it is the first of maximal fitness); the fitnesses
2, 1, 0, 3 give best fitness 3. -/
theorem best_first_maximal (p : Population) (hne : p.organisms ≠ []) :
    (∃ (b : Organism) (before after : Organisms),
      p.best = some b ∧ b ∈ p.organisms ∧
      p.organisms = before ++ b :: after ∧
      (∀ o ∈ p.organisms, IntOrganism.value o ≤ IntOrganism.value b) ∧
      (∀ o ∈ before, IntOrganism.value o < IntOrganism.value b)) ∧
    seedPopulation.organisms.map IntOrganism.value = [2, 1, 0, 3] ∧
    seedPopulation.best.map IntOrganism.value = some 3 := by
  refine ⟨?_, by decide, by decide⟩
  cases ho : p.organisms with
  | nil => exact absurd ho hne
  | cons first rest =>
    obtain ⟨pre, post, he, h1, h2⟩ := best_foldl rest [] [] first
      (by intro o h; cases h) (by intro o h; cases h)
    simp only [List.nil_append] at he
    refine ⟨_, pre, post, ?_, ?_, he, ?_, h1⟩
    · simp only [Population.best, ho]
    · rw [he]; simp
    · intro o hmem
      rw [he] at hmem
      rcases List.mem_append.mp hmem with h | h
      · exact (h1 o h).le
      · rcases List.mem_cons.mp h with h | h
        · rw [h]
        · exact h2 o h

/-- C7 at the seed population. -/
theorem best_first_maximal_witness :
    seedPopulation.organisms ≠ [] ∧
    ((∃ (b : Organism) (before after : Organisms),
      seedPopulation.best = some b ∧ b ∈ seedPopulation.organisms ∧
      seedPopulation.organisms = before ++ b :: after ∧
      (∀ o ∈ seedPopulation.organisms, IntOrganism.value o ≤ IntOrganism.value b) ∧
      (∀ o ∈ before, IntOrganism.value o < IntOrganism.value b)) ∧
    seedPopulation.organisms.map IntOrganism.value = [2, 1, 0, 3] ∧
    seedPopulation.best.map IntOrganism.value = some 3) :=
  ⟨by decide, best_first_maximal seedPopulation (by decide)⟩

/-- C8: `best()` is total; on an empty population it returns the nil result, and it
returns the nil result only when the population is empty (every other result is an
organism of the population). -/
theorem best_nil_iff_empty (p : Population) :
    (p.best = none ↔ p.organisms = []) ∧ (∀ b, p.best = some b → b ∈ p.organisms) := by
  constructor
  · cases ho : p.organisms with
    | nil => simp [Population.best, ho]
    | cons first rest => simp [Population.best, ho]
  · intro b hb
    have hne : p.organisms ≠ [] := by
      intro h
      simp [Population.best, h] at hb
    obtain ⟨pre, post, he, _, _⟩ := best_foldl p.organisms.tail [] [] (p.organisms.head hne)
      (by intro o h; cases h) (by intro o h; cases h)
    cases ho : p.organisms with
    | nil => exact absurd ho hne
    | cons first rest =>
      simp only [Population.best, ho, Option.some.injEq] at hb
      simp only [ho, List.head_cons, List.tail_cons, List.nil_append] at he
      rw [hb] at he
      rw [he]
      simp

/-- C9, where the code departs from it: three runs whose organisms share one length
and whose rates are in `[0,1]`, and which stop with a panic that is not the
invalid-argument panic of `crossover`.  (1) One organism, birth rate 0, death rate 1:
generation 1 kills the only organism and the report calls `value()` on the nil result
of `best()`.  (2) An empty seed population: the generation-0 report does the same.
(3) Two organisms of length 0, birth rate 1: `crossover` calls `rand.Intn(0)`. -/
theorem evolve_panics_without_mismatch [Platform] :
    (lonePopulation.birthRate.InUnit ∧ lonePopulation.deathRate.InUnit ∧
      (∀ o ∈ lonePopulation.organisms, o.length = 1) ∧
      ∀ (S : SortAlg) (g : Rng), lonePopulation.evolve S 1 g = .error Fault.nilDeref) ∧
    (∀ (S : SortAlg) (b d : F32) (iters : Int) (g : Rng),
      Population.evolve S ⟨[], b, d⟩ iters g = .error Fault.nilDeref) ∧
    (emptyGenes.birthRate.InUnit ∧ emptyGenes.deathRate.InUnit ∧
      (∀ o ∈ emptyGenes.organisms, o.length = 0) ∧
      ∀ (S : SortAlg) (g : Rng), emptyGenes.evolve S 1 g = .error Fault.intnArg) := by
  refine ⟨⟨by decide, by decide, by decide, ?_⟩, ?_, ⟨by decide, by decide, by decide, ?_⟩⟩
  · intro S g
    obtain ⟨N, parents, g1, hN, _, _, hsel, _, hl⟩ :=
      selectParents_spec S lonePopulation g (by decide) (by decide)
    have hN0 : lonePopulation.numParents = .ok 0 :=
      (numParents_eq (show lonePopulation.organisms.length < maxLen by decide)
        (show lonePopulation.birthRate = F32.finite false 0 from rfl)
        (by decide)).trans (by decide)
    rw [hN0] at hN
    have hN' : N = 0 := by
      simp only [Except.ok.injEq] at hN
      omega
    subst hN'
    have hparents : parents = [] := List.length_eq_zero.mp hl
    subst hparents
    obtain ⟨N, K, _, hK, _, _, _, _, hl1, _, _, hbc⟩ :=
      breedAndCull_spec S lonePopulation g (by decide) (by decide) (by decide) hsel
        (show breed [] g1 = .ok ([], g1) from rfl)
    have hK1 : lonePopulation.numToKill = .ok 1 :=
      (numToKill_eq (show lonePopulation.organisms.length < maxLen by decide)
        (show lonePopulation.deathRate = F32.finite false (2 ^ 149) from rfl)
        (by decide)).trans (by decide)
    rw [hK1] at hK
    have hK' : K = 1 := by
      simp only [Except.ok.injEq] at hK
      omega
    subst hK'
    have hempty : (S.sort Organisms.Less
        ({ lonePopulation with
            organisms := [] ++ (S.sort ReverseSort.Less lonePopulation.organisms).drop 0 } :
          Population).organisms).drop 1 ++ [] = [] := by
      rw [List.append_nil]
      apply List.length_eq_zero.mp
      rw [List.length_drop, (S.perm _ _).length_eq]
      simp only [List.nil_append, List.drop_zero]
      rw [(S.perm _ _).length_eq]
      rfl
    rw [hempty] at hbc
    have hrep : lonePopulation.report 0 = .ok (Line.iteration 0 1 1 1) := by decide
    simp only [Population.evolve, hrep, bind, Except.bind, Int.toNat_one, evolveLoop,
      Population.generation, hbc, Population.report, Population.best]
    rfl
  · intro S b d iters g
    rfl
  · intro S g
    obtain ⟨N, parents, g1, hN, _, _, hsel, hperm, hl⟩ :=
      selectParents_spec S emptyGenes g (by decide) (by decide)
    have hN2 : emptyGenes.numParents = .ok 2 :=
      (numParents_eq (show emptyGenes.organisms.length < maxLen by decide)
        (show emptyGenes.birthRate = F32.finite false (2 ^ 149) from rfl)
        (by decide)).trans (by decide)
    rw [hN2] at hN
    have hN' : N = 2 := by
      simp only [Except.ok.injEq] at hN
      omega
    subst hN'
    have hall : ∀ x ∈ parents, x = [] := by
      intro x hx
      have h1 : x ∈ S.sort ReverseSort.Less emptyGenes.organisms :=
        List.mem_of_mem_take (hperm.mem_iff.mp hx)
      have h2 : x ∈ emptyGenes.organisms := (S.perm _ _).mem_iff.mp h1
      have h3 : ∀ y ∈ emptyGenes.organisms, y = [] := by decide
      exact h3 x h2
    match parents, hl, hall, hsel with
    | [x, y], _, hall, hsel =>
      have hx : x = [] := hall x (by simp)
      have hy : y = [] := hall y (by simp)
      subst hx hy
      have hbreed : breed [[], []] g1 = .error Fault.intnArg := by
        simp only [breed, crossover_empty [] [] g1 rfl rfl, bind, Except.bind]
      simp only [Population.evolve, bind, Except.bind, Int.toNat_one, evolveLoop,
        Population.generation, Population.breedAndCull, hsel, hbreed]
      rfl

/-- C10: in one generation started on a population of size `P` (below `maxLen`) with
rates in `[0,1]`, in which selection returns `parents` and every crossover of the
breeding loop succeeds, the number of children born is `C = numParents() / 2`, the
number killed is `K = numToKill()`, both taken on the population at the start of the
generation, and the population after the merge has exactly `P - K + C` organisms;
when that population is not empty the generation prints `C children born, K
organisms die` and an `Iteration` line with size `P - K + C`. -/
theorem generation_counts [Platform] (S : SortAlg) (p : Population) (g : Rng)
    (parents children : Organisms) (p1 : Population) (g1 g2 : Rng)
    (hlen : p.organisms.length < maxLen) (hb : p.birthRate.InUnit) (hd : p.deathRate.InUnit)
    (hsel : p.selectParents S g = .ok (parents, p1, g1))
    (hbreed : breed parents g1 = .ok (children, g2)) :
    ∃ (n k : Nat) (p2 : Population),
      p.numParents = .ok (n : Int) ∧ p.numToKill = .ok (k : Int) ∧
      p.breedAndCull S g = .ok (p2, g2, ((n / 2 : Nat) : Int), (k : Int)) ∧
      children.length = n / 2 ∧ k ≤ p.organisms.length ∧
      p2.organisms.length = p.organisms.length - k + n / 2 ∧
      ∀ i : Int, p2.organisms ≠ [] → ∃ value best : Int,
        p.generation S g i = .ok (p2, g2,
          [Line.births ((n / 2 : Nat) : Int) (k : Int),
            Line.iteration i ((p.organisms.length - k + n / 2 : Nat) : Int) value best]) := by
  obtain ⟨N, K, hN, hK, _, hKle, _, hcl, hl1, _, _, hbc⟩ :=
    breedAndCull_spec S p g hlen hb hd hsel hbreed
  have hsize : ((S.sort Organisms.Less p1.organisms).drop K ++ children).length
      = p.organisms.length - K + N / 2 := by
    rw [List.length_append, List.length_drop, (S.perm _ _).length_eq, hl1, hcl]
  rw [hcl] at hbc
  refine ⟨N, K,
    { p1 with organisms := (S.sort Organisms.Less p1.organisms).drop K ++ children },
    hN, hK, hbc, hcl, hKle, hsize, ?_⟩
  intro i hne
  obtain ⟨b, _, hrep⟩ := report_ok _ i hne
  refine ⟨Population.value
    { p1 with organisms := (S.sort Organisms.Less p1.organisms).drop K ++ children },
    IntOrganism.value b, ?_⟩
  simp only [Population.generation, hbc, bind, Except.bind, hrep]
  rw [← hsize]
  rfl

/-- C10 at the seed population, sorted by insertion sort, for the draws 0, 0, 1, 2, 1, 2. -/
theorem generation_counts_witness :
    seedPopulation.organisms.length < maxLen ∧ seedPopulation.birthRate.InUnit ∧
    seedPopulation.deathRate.InUnit ∧
    seedPopulation.selectParents insertionSortAlg ⟨[0, 0, 1, 2, 1, 2]⟩ =
      .ok ([[1, 1, 0], [1, 0, 0], [0, 0, 0], [1, 1, 1]],
        ⟨[[1, 1, 0], [1, 0, 0], [0, 0, 0], [1, 1, 1]], f32Half, f32Half⟩, ⟨[1, 2]⟩) ∧
    breed [[1, 1, 0], [1, 0, 0], [0, 0, 0], [1, 1, 1]] ⟨[1, 2]⟩ =
      .ok ([[1, 0, 0], [0, 0, 1]], ⟨[]⟩) ∧
    ∃ (n k : Nat) (p2 : Population),
      seedPopulation.numParents = .ok (n : Int) ∧ seedPopulation.numToKill = .ok (k : Int) ∧
      seedPopulation.breedAndCull insertionSortAlg ⟨[0, 0, 1, 2, 1, 2]⟩ =
        .ok (p2, ⟨[]⟩, ((n / 2 : Nat) : Int), (k : Int)) ∧
      ([[1, 0, 0], [0, 0, 1]] : Organisms).length = n / 2 ∧
      k ≤ seedPopulation.organisms.length ∧
      p2.organisms.length = seedPopulation.organisms.length - k + n / 2 ∧
      ∀ i : Int, p2.organisms ≠ [] → ∃ value best : Int,
        seedPopulation.generation insertionSortAlg ⟨[0, 0, 1, 2, 1, 2]⟩ i = .ok (p2, ⟨[]⟩,
          [Line.births ((n / 2 : Nat) : Int) (k : Int),
            Line.iteration i ((seedPopulation.organisms.length - k + n / 2 : Nat) : Int)
              value best]) :=
  ⟨by decide, by decide, by decide, by decide, by decide,
    generation_counts insertionSortAlg seedPopulation ⟨[0, 0, 1, 2, 1, 2]⟩
      [[1, 1, 0], [1, 0, 0], [0, 0, 0], [1, 1, 1]] [[1, 0, 0], [0, 0, 1]]
      ⟨[[1, 1, 0], [1, 0, 0], [0, 0, 0], [1, 1, 1]], f32Half, f32Half⟩ ⟨[1, 2]⟩ ⟨[]⟩
      (by decide) (by decide) (by decide) (by decide) (by decide)⟩

/-- C11: zero generations leave the population as it was.  For every seed
population, sort and random source, the population that `evolve(0)` holds when the
run ends is the seed population itself: the same organism collection, hence the
same size and the same total value.  On a non-empty seed the run returns, having
printed only the generation-0 line with the seed's size and value; on the empty
seed it stops in that first report (the nil result of `best()`, the defect of C9)
before anything is written, so the population is the seed there as well. -/
theorem evolve_zero_generations [Platform] :
    (∀ (S : SortAlg) (p : Population) (g : Rng),
      p.afterEvolve S 0 g = p ∧
      (p.afterEvolve S 0 g).organisms = p.organisms ∧
      (p.afterEvolve S 0 g).organisms.length = p.organisms.length ∧
      (p.afterEvolve S 0 g).value = p.value) ∧
    (∀ (S : SortAlg) (p : Population) (g : Rng), p.organisms ≠ [] →
      ∃ best, p.best = some best ∧
        p.evolve S 0 g = .ok (p, g,
          [Line.iteration 0 p.organisms.length p.value (IntOrganism.value best)])) ∧
    (∀ (S : SortAlg) (p : Population) (g : Rng) (r : Population × Rng × List Line),
      p.evolve S 0 g = .ok r → r.1 = p ∧ p.afterEvolve S 0 g = r.1) ∧
    (∀ (S : SortAlg) (b d : F32) (g : Rng),
      Population.evolve S ⟨[], b, d⟩ 0 g = .error Fault.nilDeref ∧
      Population.afterEvolve S ⟨[], b, d⟩ 0 g = ⟨[], b, d⟩) := by
  have hstate : ∀ (S : SortAlg) (p : Population) (g : Rng), p.afterEvolve S 0 g = p := by
    intro S p g
    unfold Population.afterEvolve
    cases p.report 0 with
    | error e => rfl
    | ok line => rfl
  refine ⟨?_, ?_, ?_, ?_⟩
  · intro S p g
    rw [hstate]
    exact ⟨rfl, rfl, rfl, rfl⟩
  · intro S p g hne
    obtain ⟨b, hb, hrep⟩ := report_ok p 0 hne
    refine ⟨b, hb, ?_⟩
    simp only [Population.evolve, hrep, bind, Except.bind, Int.toNat_zero, evolveLoop]
    rfl
  · intro S p g r h
    have h2 := afterEvolve_of_ok S p 0 g h
    rw [hstate] at h2
    exact ⟨h2.symm, by rw [hstate]; exact h2⟩
  · intro S b d g
    exact ⟨rfl, hstate S _ g⟩

/-- C12, as stated, fails: for twenty organisms and the birth rate `float32(0.35)`
(`11744051 * 2^-25`, a binary32 value in `[0,1]`) `numParents()` is `14`, while
`2 * floor(b * P) = 12` does not exceed `P` and `min(2*floor(b*P), 2*floor(P/2))` is
`12`. -/
theorem numParents_floor_counterexample :
    F32.Representable (11744051 * 2 ^ 124) ∧ twentyOrganisms.birthRate.InUnit ∧
    twentyOrganisms.organisms.length = 20 ∧
    twentyOrganisms.numParents = .ok 14 ∧
    F32.floorMul twentyOrganisms.birthRate 20 = 6 ∧
    specNumParents twentyOrganisms.birthRate twentyOrganisms.organisms.length = 12 ∧
    min (2 * F32.floorMul twentyOrganisms.birthRate 20) (2 * ((20 : Int) / 2)) = 12 ∧
    twentyOrganisms.numParents ≠
      .ok (specNumParents twentyOrganisms.birthRate twentyOrganisms.organisms.length) := by
  decide

/-- C12, amended: for a population of size `P` and a birth rate `b` in `[0,1]`, let
`m` be the integer part of the binary32 product `float32(P) * b`; `numParents()`
equals `2 * m` when that does not exceed `P` and otherwise the largest even number
not exceeding `P`, that is `min(2 * m, 2 * floor(P/2))`; for `P < 2^24`, `m` is
`floor(b * P)` or `floor(b * P) + 1`, and when `m = floor(b * P)` the result is the
specification's formula; `P = 4`, `b = 0.5` gives `4`. -/
theorem numParents_closed_form [Platform] (p : Population) (hlen : p.organisms.length < maxLen)
    (hb : p.birthRate.InUnit) :
    ∃ n m : Int, p.numParents = .ok n ∧
      F32.toInt (F32.mul (F32.ofInt p.organisms.length) p.birthRate) = .ok m ∧
      n = (if 2 * m ≤ p.organisms.length then 2 * m
        else 2 * ((p.organisms.length : Int) / 2)) ∧
      n = min (2 * m) (2 * ((p.organisms.length : Int) / 2)) ∧
      (p.organisms.length < 2 ^ 24 →
        F32.floorMul p.birthRate p.organisms.length ≤ m ∧
        m ≤ F32.floorMul p.birthRate p.organisms.length + 1) ∧
      (m = F32.floorMul p.birthRate p.organisms.length →
        n = specNumParents p.birthRate p.organisms.length) ∧
      seedPopulation.numParents = .ok 4 := by
  cases hr : p.birthRate with
  | finite neg k =>
    rw [hr] at hb
    refine ⟨_, _, numParents_eq hlen hr hb, toInt_mul_ofInt hlen hb, ?_, ?_, ?_, ?_,
      (numParents_eq (show seedPopulation.organisms.length < maxLen by decide)
        (show seedPopulation.birthRate = F32.finite false (2 ^ 148) from rfl)
        (by decide)).trans (by decide)⟩
    · split_ifs <;> omega
    · split_ifs <;> omega
    · intro hsmall
      obtain ⟨hk, hneg⟩ := hb
      obtain ⟨h1, h2⟩ := truncMul_floor hsmall hk
      have hfl : F32.floorMul (F32.finite neg k) p.organisms.length
          = ((p.organisms.length * k / 2 ^ 149 : Nat) : Int) := by
        rcases hneg with hneg | hk0
        · subst hneg
          rw [Nat.mul_comm]
          simp only [F32.floorMul]
          norm_cast
        · subst hk0
          cases neg <;> simp [F32.floorMul]
      rw [hfl]
      omega
    · intro hm
      unfold specNumParents
      rw [← hm]
      split_ifs <;> omega
  | inf s => rw [hr] at hb; exact hb.elim
  | nan => rw [hr] at hb; exact hb.elim

/-- C12, amended, at the seed population of the end-to-end scenario. -/
theorem numParents_closed_form_witness :
    seedPopulation.organisms.length < maxLen ∧ seedPopulation.birthRate.InUnit ∧
    ∃ n m : Int, seedPopulation.numParents = .ok n ∧
      F32.toInt (F32.mul (F32.ofInt seedPopulation.organisms.length)
        seedPopulation.birthRate) = .ok m ∧
      n = (if 2 * m ≤ seedPopulation.organisms.length then 2 * m
        else 2 * ((seedPopulation.organisms.length : Int) / 2)) ∧
      n = min (2 * m) (2 * ((seedPopulation.organisms.length : Int) / 2)) ∧
      (seedPopulation.organisms.length < 2 ^ 24 →
        F32.floorMul seedPopulation.birthRate seedPopulation.organisms.length ≤ m ∧
        m ≤ F32.floorMul seedPopulation.birthRate seedPopulation.organisms.length + 1) ∧
      (m = F32.floorMul seedPopulation.birthRate seedPopulation.organisms.length →
        n = specNumParents seedPopulation.birthRate seedPopulation.organisms.length) ∧
      seedPopulation.numParents = .ok 4 :=
  ⟨by decide, by decide, numParents_closed_form seedPopulation (by decide) (by decide)⟩

/-- C13, as stated, fails for birth rates outside `(-1, 2^62)`: with one organism,
the birth rate `-1` gives `numParents() = -2`, and the birth rate `2^62` gives
`numParents() = -2^63` (the doubling wraps around).  Both conversions are of values
that `int` holds, so the platform plays no part. -/
theorem lone_organism_counterexample :
    loneNegativeRate.organisms.length = 1 ∧ F32.Representable (2 ^ 149) ∧
    loneNegativeRate.numParents = .ok (-2) ∧
    loneHugeRate.organisms.length = 1 ∧ F32.Representable (2 ^ 211) ∧
    loneHugeRate.numParents = .ok (-(2 ^ 63)) := by
  decide

/-- C13, amended: for a population of exactly one organism, on every platform and
for every death rate (infinities and NaN included), `numToKill()` is at most `1`.
For every birth rate `b`, with `m` the `int` that the conversion of `float32(1) * b`
yields, `numParents()` is `0` or negative, and it is `0` exactly when the doubled
`m`, wrapped to 64 bits, is not negative; then `selectParents` returns no parents
and the breeding loop no children, and otherwise `selectParents` panics.  For a
binary32 `b` whose integer part fits an `int`, `m` is that integer part; so
`numParents()` is `0` for every `b` with `-1 < b < 2^62`, every rate in `[0,1]`
among them. -/
theorem lone_organism_counts [Platform] (p : Population) (hone : p.organisms.length = 1) :
    ∃ m n k : Int,
      F32.toInt (F32.mul (F32.ofInt p.organisms.length) p.birthRate) = .ok m ∧
      p.numParents = .ok n ∧ n ≤ 0 ∧ (n = 0 ↔ 0 ≤ wrapInt (m * 2)) ∧
      (n = 0 → ∀ (S : SortAlg) (g : Rng), ∃ p1,
        p.selectParents S g = .ok ([], p1, g) ∧ breed [] g = .ok ([], g)) ∧
      (n < 0 → ∀ (S : SortAlg) (g : Rng),
        p.selectParents S g = .error Fault.outOfRange) ∧
      p.numToKill = .ok k ∧ k ≤ 1 ∧
      (∀ (negb : Bool) (kb : Nat), p.birthRate = F32.finite negb kb →
        F32.Representable kb → kb / 2 ^ 149 < 2 ^ 63 →
        m = (if negb then -((kb / 2 ^ 149 : Nat) : Int) else ((kb / 2 ^ 149 : Nat) : Int))) ∧
      (∀ (negb : Bool) (kb : Nat), p.birthRate = F32.finite negb kb →
        F32.Representable kb → kb < (if negb then 2 ^ 149 else 2 ^ 211) → n = 0) := by
  have hp149 : 0 < 2 ^ 149 := by positivity
  have hlen : p.organisms.length < maxLen := by rw [hone]; decide
  obtain ⟨m, hm, hm1, hm2, hnum⟩ := numParents_clamp p hlen
  obtain ⟨t, ht, _, _, hkill⟩ := numToKill_clamp p
  have hmexp : ∀ (negb : Bool) (kb : Nat), p.birthRate = F32.finite negb kb →
      F32.Representable kb → kb / 2 ^ 149 < 2 ^ 63 →
      m = (if negb then -((kb / 2 ^ 149 : Nat) : Int) else ((kb / 2 ^ 149 : Nat) : Int)) := by
    intro negb kb hb hrep h63
    have h := hm
    rw [hone, hb, mul_one_exact hrep, toInt_finite negb kb h63] at h
    simp only [Except.ok.injEq] at h
    exact h.symm
  rw [hone] at hnum hkill
  have hw := wrapInt_range (m * 2)
  have hev : wrapInt (m * 2) % 2 = 0 := by
    unfold wrapInt
    omega
  generalize hwdef : wrapInt (m * 2) = w at hnum hw hev
  have hn : (if w > ((1 : Nat) : Int) then ((2 * (1 / 2) : Nat) : Int) else w) ≤ 0 ∧
      ((if w > ((1 : Nat) : Int) then ((2 * (1 / 2) : Nat) : Int) else w) = 0 ↔ 0 ≤ w) := by
    by_cases hc : w > ((1 : Nat) : Int)
    · rw [if_pos hc]
      refine ⟨by decide, ?_⟩
      constructor
      · intro _; omega
      · intro _; decide
    · rw [if_neg hc]
      constructor
      · omega
      · constructor <;> intro h <;> omega
  subst hwdef
  refine ⟨m, _, _, hm, hnum, hn.1, hn.2, ?_, ?_, hkill, by omega, hmexp, ?_⟩
  · intro h0 S g
    rw [h0] at hnum
    exact ⟨_, selectParents_none S p g hnum, rfl⟩
  · intro hneg S g
    exact selectParents_negative S p g hnum hneg
  · intro negb kb hb hrep hrange
    have hlt : kb / 2 ^ 149 < 2 ^ 62 := by
      rw [Nat.div_lt_iff_lt_mul hp149, ← pow_add]
      split_ifs at hrange
      · exact Nat.lt_of_lt_of_le hrange (Nat.pow_le_pow_right (by norm_num) (by norm_num))
      · exact hrange
    have h62 : (2 : Nat) ^ 62 < 2 ^ 63 := by norm_num
    have hme := hmexp negb kb hb hrep (by omega)
    have hcast : ((kb / 2 ^ 149 : Nat) : Int) < 2 ^ 62 := by exact_mod_cast hlt
    have hnn : (0 : Int) ≤ ((kb / 2 ^ 149 : Nat) : Int) := Int.ofNat_nonneg _
    apply hn.2.mpr
    have hm0 : 0 ≤ m ∧ m < 2 ^ 62 := by
      rw [hme]
      cases negb
      · simp only [Bool.false_eq_true, if_false]
        exact ⟨hnn, hcast⟩
      · have hk0 : kb / 2 ^ 149 = 0 := by
          simp only [if_true] at hrange
          exact Nat.div_eq_of_lt hrange
        rw [hk0]
        decide
    unfold wrapInt
    omega

/-- C13, amended, at one organism with birth rate 0 and death rate 1. -/
theorem lone_organism_counts_witness :
    lonePopulation.organisms.length = 1 ∧
    ∃ m n k : Int,
      F32.toInt (F32.mul (F32.ofInt lonePopulation.organisms.length)
        lonePopulation.birthRate) = .ok m ∧
      lonePopulation.numParents = .ok n ∧ n ≤ 0 ∧ (n = 0 ↔ 0 ≤ wrapInt (m * 2)) ∧
      (n = 0 → ∀ (S : SortAlg) (g : Rng), ∃ p1,
        lonePopulation.selectParents S g = .ok ([], p1, g) ∧ breed [] g = .ok ([], g)) ∧
      (n < 0 → ∀ (S : SortAlg) (g : Rng),
        lonePopulation.selectParents S g = .error Fault.outOfRange) ∧
      lonePopulation.numToKill = .ok k ∧ k ≤ 1 ∧
      (∀ (negb : Bool) (kb : Nat), lonePopulation.birthRate = F32.finite negb kb →
        F32.Representable kb → kb / 2 ^ 149 < 2 ^ 63 →
        m = (if negb then -((kb / 2 ^ 149 : Nat) : Int) else ((kb / 2 ^ 149 : Nat) : Int))) ∧
      (∀ (negb : Bool) (kb : Nat), lonePopulation.birthRate = F32.finite negb kb →
        F32.Representable kb → kb < (if negb then 2 ^ 149 else 2 ^ 211) → n = 0) :=
  ⟨by decide, lone_organism_counts lonePopulation (by decide)⟩

/-- C14, as stated, fails.  (1) For `2^24 + 1` organisms and the death rate `1`,
`float32(16777217)` is `16777216`, so `numToKill()` is `16777216` and one organism
survives.  (2) For two organisms and the birth rate `2^61`, the doubling of
`numBirths = 2^62` wraps around and `numParents()` is `-2^63`.  (3) For one
organism and the death rate `2^63` the product is not an `int`; on the platform
`minIntPlatform` the conversion yields `-2^63`, which the cap leaves alone, so
`numToKill()` is `-2^63`. -/
theorem full_cull_counterexample :
    (largePopulation.organisms.length = 16777217 ∧ largePopulation.deathRate = f32One ∧
      largePopulation.numToKill = .ok 16777216) ∧
    (pairHugeRate.organisms.length = 2 ∧ F32.Representable (2 ^ 210) ∧
      pairHugeRate.numParents = .ok (-(2 ^ 63))) ∧
    (loneHugeDeath.organisms.length = 1 ∧ F32.Representable (2 ^ 212) ∧
      loneHugeDeath.numToKill = .ok (-(2 ^ 63))) := by
  have hl : largePopulation.organisms.length = 16777217 := by
    show (List.replicate (2 ^ 24 + 1) ([] : Organism)).length = 16777217
    rw [List.length_replicate]
    norm_num
  refine ⟨⟨hl, rfl, ?_⟩, ⟨by decide, by decide, by decide⟩,
    ⟨by decide, by decide, by decide⟩⟩
  have h := @numToKill_eq _ largePopulation false (2 ^ 149) (by rw [hl]; decide) rfl
    (by decide)
  rw [h, hl]
  decide

/-- C14, amended: for every population size `P` (below `maxLen`) and on every
platform, birth rate `0` gives `numParents() = 0` and death rate `0` gives
`numToKill() = 0`.  For every death rate, `numToKill()` is the `int` that the
conversion of `float32(P) * d` yields, capped at `P`; so it is `P` exactly when that
`int` is at least `P`.  For a death rate `d >= 1` whose product has an integer part
`t` below `2^63`, the conversion yields `t`, and `numToKill()` is `P` exactly when
`t >= P`, which holds whenever `float32(P)` is not below `P`, as for every
`P < 2^24`.  For every birth rate, `numParents()` is the doubled conversion wrapped
to 64 bits, replaced by the largest even number `<= P` when it exceeds `P`; for a
birth rate `b >= 1` whose product has an integer part `t` below `2^63`,
`numParents()` is the largest even number `<= P` exactly when `t < 2^62`. -/
theorem degenerate_rates [Platform] (organisms : Organisms) (other : F32)
    (hlen : organisms.length < maxLen) :
    (∀ neg, (⟨organisms, F32.finite neg 0, other⟩ : Population).numParents = .ok 0) ∧
    (∀ neg, (⟨organisms, other, F32.finite neg 0⟩ : Population).numToKill = .ok 0) ∧
    (∀ d : F32, ∃ m : Int,
      F32.toInt (F32.mul (F32.ofInt organisms.length) d) = .ok m ∧
      (⟨organisms, other, d⟩ : Population).numToKill
        = .ok (min m (organisms.length : Int)) ∧
      ((⟨organisms, other, d⟩ : Population).numToKill = .ok (organisms.length : Int) ↔
        (organisms.length : Int) ≤ m)) ∧
    (∀ k, 2 ^ 149 ≤ k → truncMul organisms.length k < 2 ^ 63 →
      F32.toInt (F32.mul (F32.ofInt organisms.length) (F32.finite false k))
        = .ok (truncMul organisms.length k : Int) ∧
      ((⟨organisms, other, F32.finite false k⟩ : Population).numToKill
          = .ok (organisms.length : Int) ↔
        organisms.length ≤ truncMul organisms.length k) ∧
      (organisms.length * 2 ^ 149 ≤ roundScaled organisms.length 0 →
        organisms.length ≤ truncMul organisms.length k)) ∧
    (organisms.length < 2 ^ 24 →
      organisms.length * 2 ^ 149 ≤ roundScaled organisms.length 0) ∧
    (∀ b : F32, ∃ m : Int,
      F32.toInt (F32.mul (F32.ofInt organisms.length) b) = .ok m ∧
      (⟨organisms, b, other⟩ : Population).numParents
        = .ok (if wrapInt (m * 2) > (organisms.length : Int)
          then ((2 * (organisms.length / 2) : Nat) : Int) else wrapInt (m * 2))) ∧
    (∀ k, 2 ^ 149 ≤ k → truncMul organisms.length k < 2 ^ 63 →
      ((⟨organisms, F32.finite false k, other⟩ : Population).numParents
          = .ok ((2 * (organisms.length / 2) : Nat) : Int) ↔
        truncMul organisms.length k < 2 ^ 62)) := by
  have ht0 : truncMul organisms.length 0 = 0 := by
    unfold truncMul
    rw [Nat.mul_zero, roundScaled_zero]
    exact Nat.zero_div _
  have hdeath : ∀ d : F32, ∃ m : Int,
      F32.toInt (F32.mul (F32.ofInt organisms.length) d) = .ok m ∧
      (⟨organisms, other, d⟩ : Population).numToKill
        = .ok (min m (organisms.length : Int)) ∧
      ((⟨organisms, other, d⟩ : Population).numToKill = .ok (organisms.length : Int) ↔
        (organisms.length : Int) ≤ m) := by
    intro d
    obtain ⟨m, hm, _, _, hk⟩ := numToKill_clamp ⟨organisms, other, d⟩
    refine ⟨m, hm, hk, ?_⟩
    rw [hk]
    simp only [Except.ok.injEq]
    show min m (organisms.length : Int) = (organisms.length : Int) ↔ _
    omega
  have hbirth : ∀ b : F32, ∃ m : Int,
      F32.toInt (F32.mul (F32.ofInt organisms.length) b) = .ok m ∧
      (⟨organisms, b, other⟩ : Population).numParents
        = .ok (if wrapInt (m * 2) > (organisms.length : Int)
          then ((2 * (organisms.length / 2) : Nat) : Int) else wrapInt (m * 2)) := by
    intro b
    obtain ⟨m, hm, _, _, hn⟩ := numParents_clamp ⟨organisms, b, other⟩ hlen
    exact ⟨m, hm, hn⟩
  refine ⟨?_, ?_, hdeath, ?_, ?_, hbirth, ?_⟩
  · intro neg
    have hu : F32.InUnit (F32.finite neg 0) := ⟨Nat.zero_le _, Or.inr rfl⟩
    have h := @numParents_eq _ ⟨organisms, F32.finite neg 0, other⟩ neg 0 hlen rfl hu
    rw [h]
    show Except.ok _ = Except.ok _
    rw [ht0]
    rfl
  · intro neg
    have hu : F32.InUnit (F32.finite neg 0) := ⟨Nat.zero_le _, Or.inr rfl⟩
    have h := @numToKill_eq _ ⟨organisms, other, F32.finite neg 0⟩ neg 0 hlen rfl hu
    rw [h]
    show Except.ok _ = Except.ok _
    rw [ht0]
    exact congrArg Except.ok (by
      show ((min 0 organisms.length : Nat) : Int) = 0
      rw [Nat.zero_min]
      rfl)
  · intro k hk h63
    have h1 := @toInt_mul_of_lt _ organisms.length k hlen h63
    refine ⟨h1, ?_, fun hfl => P_le_truncMul hk hfl⟩
    obtain ⟨m, hm, _, hiff⟩ := hdeath (F32.finite false k)
    rw [h1] at hm
    simp only [Except.ok.injEq] at hm
    rw [hiff, ← hm]
    exact Int.ofNat_le
  · intro hsmall
    rw [roundScaled_small hsmall]
  · intro k hk h63
    have h1 := @toInt_mul_of_lt _ organisms.length k hlen h63
    obtain ⟨m, hm, hn⟩ := hbirth (F32.finite false k)
    rw [h1] at hm
    simp only [Except.ok.injEq] at hm
    rw [hn, ← hm]
    simp only [Except.ok.injEq]
    have h59 : (2 : Nat) ^ 59 = 576460752303423488 := by norm_num
    unfold maxLen at hlen
    have hhalf : organisms.length ≠ 0 → organisms.length < 2 * truncMul organisms.length k :=
      fun h0 => half_lt_truncMul h0 hk
    have hzero : organisms.length = 0 → truncMul organisms.length k = 0 := by
      intro h0
      rw [h0]
      exact truncMul_zero_left k
    generalize truncMul organisms.length k = t at h63 hhalf hzero ⊢
    generalize organisms.length = P at hlen hhalf hzero ⊢
    unfold wrapInt
    constructor
    · intro h
      by_contra hge
      split_ifs at h <;> omega
    · intro h
      split_ifs <;> omega

/-- C14, amended, at the organisms of the seed population. -/
theorem degenerate_rates_witness :
    (seedPopulation.organisms.length < maxLen) ∧
    ((∀ neg, (⟨seedPopulation.organisms, F32.finite neg 0, f32Half⟩ : Population).numParents
      = .ok 0) ∧
    (∀ neg, (⟨seedPopulation.organisms, f32Half, F32.finite neg 0⟩ : Population).numToKill
      = .ok 0) ∧
    (∀ d : F32, ∃ m : Int,
      F32.toInt (F32.mul (F32.ofInt seedPopulation.organisms.length) d) = .ok m ∧
      (⟨seedPopulation.organisms, f32Half, d⟩ : Population).numToKill
        = .ok (min m (seedPopulation.organisms.length : Int)) ∧
      ((⟨seedPopulation.organisms, f32Half, d⟩ : Population).numToKill
          = .ok (seedPopulation.organisms.length : Int) ↔
        (seedPopulation.organisms.length : Int) ≤ m)) ∧
    (∀ k, 2 ^ 149 ≤ k → truncMul seedPopulation.organisms.length k < 2 ^ 63 →
      F32.toInt (F32.mul (F32.ofInt seedPopulation.organisms.length) (F32.finite false k))
        = .ok (truncMul seedPopulation.organisms.length k : Int) ∧
      ((⟨seedPopulation.organisms, f32Half, F32.finite false k⟩ : Population).numToKill
          = .ok (seedPopulation.organisms.length : Int) ↔
        seedPopulation.organisms.length ≤ truncMul seedPopulation.organisms.length k) ∧
      (seedPopulation.organisms.length * 2 ^ 149 ≤ roundScaled seedPopulation.organisms.length 0 →
        seedPopulation.organisms.length ≤ truncMul seedPopulation.organisms.length k)) ∧
    (seedPopulation.organisms.length < 2 ^ 24 →
      seedPopulation.organisms.length * 2 ^ 149 ≤ roundScaled seedPopulation.organisms.length 0) ∧
    (∀ b : F32, ∃ m : Int,
      F32.toInt (F32.mul (F32.ofInt seedPopulation.organisms.length) b) = .ok m ∧
      (⟨seedPopulation.organisms, b, f32Half⟩ : Population).numParents
        = .ok (if wrapInt (m * 2) > (seedPopulation.organisms.length : Int)
          then ((2 * (seedPopulation.organisms.length / 2) : Nat) : Int)
          else wrapInt (m * 2))) ∧
    (∀ k, 2 ^ 149 ≤ k → truncMul seedPopulation.organisms.length k < 2 ^ 63 →
      ((⟨seedPopulation.organisms, F32.finite false k, f32Half⟩ : Population).numParents
          = .ok ((2 * (seedPopulation.organisms.length / 2) : Nat) : Int) ↔
        truncMul seedPopulation.organisms.length k < 2 ^ 62))) :=
  ⟨by decide, degenerate_rates seedPopulation.organisms f32Half (by decide)⟩

/-- C15, as stated, fails at the split index `L - 1`: for `A = 110`, `B = 001` and
the split index `2` the child is `111`, which is neither parent. -/
theorem crossover_last_index_counterexample :
    ([1, 1, 0] : IntOrganism).length = ([0, 0, 1] : IntOrganism).length ∧
    (2 : Nat) = ([1, 1, 0] : IntOrganism).length - 1 ∧
    IntOrganism.crossover [1, 1, 0] [0, 0, 1] ⟨[2]⟩ = .ok ([1, 1, 1], ⟨[]⟩) ∧
    ([1, 1, 1] : IntOrganism) ≠ [1, 1, 0] ∧ ([1, 1, 1] : IntOrganism) ≠ [0, 0, 1] := by
  decide

/-- C15, amended: for bit strings `A` and `B` of one length `L >= 1`, the split index
`0` produces a child identical to `B`; the split index `L - 1` produces the first
`L - 1` genes of `A` followed by the last gene of `B`, a child identical to `A` exactly
when `A` and `B` end in the same gene. -/
theorem crossover_end_indices (A B : IntOrganism) (draws : List Nat)
    (hlen : A.length = B.length) (hpos : 1 ≤ A.length) :
    IntOrganism.crossover A B ⟨0 :: draws⟩ = .ok (B, ⟨draws⟩) ∧
    IntOrganism.crossover A B ⟨(A.length - 1) :: draws⟩ =
      .ok (A.take (A.length - 1) ++ B.drop (A.length - 1), ⟨draws⟩) ∧
    (∀ j, j < A.length - 1 →
      (A.take (A.length - 1) ++ B.drop (A.length - 1))[j]? = A[j]?) ∧
    (A.take (A.length - 1) ++ B.drop (A.length - 1))[A.length - 1]? = B[A.length - 1]? ∧
    (A.take (A.length - 1) ++ B.drop (A.length - 1) = A ↔
      A[A.length - 1]? = B[A.length - 1]?) := by
  have h0 := crossover_ok A B ⟨0 :: draws⟩ hlen (by omega)
  have hL := crossover_ok A B ⟨(A.length - 1) :: draws⟩ hlen (by omega)
  simp only [List.headD_cons, Nat.zero_mod, List.tail_cons, List.take_zero, List.drop_zero,
    List.nil_append] at h0
  simp only [List.headD_cons, Nat.mod_eq_of_lt (show A.length - 1 < A.length by omega),
    List.tail_cons] at hL
  have hget1 : ∀ j, j < A.length - 1 →
      (A.take (A.length - 1) ++ B.drop (A.length - 1))[j]? = A[j]? := by
    intro j hj
    rw [List.getElem?_append_left (by rw [List.length_take]; omega),
      List.getElem?_take_of_lt hj]
  have hget2 : (A.take (A.length - 1) ++ B.drop (A.length - 1))[A.length - 1]?
      = B[A.length - 1]? := by
    rw [List.getElem?_append_right (by rw [List.length_take]; omega), List.length_take,
      List.getElem?_drop]
    congr 1
    omega
  refine ⟨h0, hL, hget1, hget2, ?_⟩
  constructor
  · intro h
    rw [← hget2, h]
  · intro h
    apply List.ext_getElem?
    intro j
    rcases Nat.lt_trichotomy j (A.length - 1) with hj | hj | hj
    · exact hget1 j hj
    · rw [hj, hget2, h]
    · rw [List.getElem?_eq_none (by
          rw [List.length_append, List.length_take, List.length_drop]; omega),
        List.getElem?_eq_none (by omega)]

/-- C15, amended, at the bit strings 110 and 001. -/
theorem crossover_end_indices_witness :
    ([1, 1, 0] : IntOrganism).length = ([0, 0, 1] : IntOrganism).length ∧
    1 ≤ ([1, 1, 0] : IntOrganism).length ∧
    (IntOrganism.crossover [1, 1, 0] [0, 0, 1] ⟨0 :: [5]⟩ = .ok ([0, 0, 1], ⟨[5]⟩) ∧
    IntOrganism.crossover [1, 1, 0] [0, 0, 1] ⟨(([1, 1, 0] : IntOrganism).length - 1) :: [5]⟩ =
      .ok (([1, 1, 0] : IntOrganism).take (([1, 1, 0] : IntOrganism).length - 1) ++
        ([0, 0, 1] : IntOrganism).drop (([1, 1, 0] : IntOrganism).length - 1), ⟨[5]⟩) ∧
    (∀ j, j < ([1, 1, 0] : IntOrganism).length - 1 →
      (([1, 1, 0] : IntOrganism).take (([1, 1, 0] : IntOrganism).length - 1) ++
        ([0, 0, 1] : IntOrganism).drop (([1, 1, 0] : IntOrganism).length - 1))[j]?
        = ([1, 1, 0] : IntOrganism)[j]?) ∧
    (([1, 1, 0] : IntOrganism).take (([1, 1, 0] : IntOrganism).length - 1) ++
        ([0, 0, 1] : IntOrganism).drop (([1, 1, 0] : IntOrganism).length - 1))[
          ([1, 1, 0] : IntOrganism).length - 1]?
      = ([0, 0, 1] : IntOrganism)[([1, 1, 0] : IntOrganism).length - 1]? ∧
    (([1, 1, 0] : IntOrganism).take (([1, 1, 0] : IntOrganism).length - 1) ++
        ([0, 0, 1] : IntOrganism).drop (([1, 1, 0] : IntOrganism).length - 1)
        = ([1, 1, 0] : IntOrganism) ↔
      ([1, 1, 0] : IntOrganism)[([1, 1, 0] : IntOrganism).length - 1]?
        = ([0, 0, 1] : IntOrganism)[([1, 1, 0] : IntOrganism).length - 1]?)) :=
  ⟨by decide, by decide, crossover_end_indices [1, 1, 0] [0, 0, 1] [5] (by decide) (by decide)⟩

/-- C16: for a bit string of length `L` (a slice length, below `2^63`) whose genes
are each 0 or 1, `value()` is the number of genes equal to 1, which is the sum of the
genes, and lies in `[0, L]`; the crossover of two such bit strings of equal length
`L >= 1` returns a child, and every child it returns has length `L`, genes in
`{0,1}` and fitness in `[0, L]`. -/
theorem bitstring_fitness_range (o : IntOrganism) (hbits : ∀ x ∈ o, x = 0 ∨ x = 1)
    (hlen : o.length < 2 ^ 63) :
    IntOrganism.value o = (o.count 1 : Int) ∧ IntOrganism.value o = o.sum ∧
    0 ≤ IntOrganism.value o ∧ IntOrganism.value o ≤ o.length ∧
    ∀ (B : IntOrganism) (g : Rng), (∀ x ∈ B, x = 0 ∨ x = 1) → o.length = B.length →
      (1 ≤ o.length → ∃ child g', IntOrganism.crossover o B g = .ok (child, g')) ∧
      ∀ child g', IntOrganism.crossover o B g = .ok (child, g') →
        child.length = o.length ∧ (∀ x ∈ child, x = 0 ∨ x = 1) ∧
        IntOrganism.value child = (child.count 1 : Int) ∧
        0 ≤ IntOrganism.value child ∧ IntOrganism.value child ≤ o.length := by
  obtain ⟨h1, h2, h3, h4⟩ := bit_value o hbits hlen
  refine ⟨h2, h1, h3, h4, ?_⟩
  intro B g hB hAB
  refine ⟨fun hpos => ⟨_, _, crossover_ok o B g hAB (by omega)⟩, ?_⟩
  intro child g' hc
  obtain ⟨_, hpos, hchild, _⟩ := crossover_inv o B g child g' hc
  have hi : g.draws.headD 0 % o.length < o.length := Nat.mod_lt _ (by omega)
  have hcl : child.length = o.length := by
    rw [hchild, List.length_append, List.length_take, List.length_drop]
    omega
  have hcb : ∀ x ∈ child, x = 0 ∨ x = 1 := by
    intro x hx
    rw [hchild] at hx
    rcases List.mem_append.mp hx with hx | hx
    · exact hbits x (List.mem_of_mem_take hx)
    · exact hB x (List.mem_of_mem_drop hx)
  obtain ⟨c1, c2, c3, c4⟩ := bit_value child hcb (by rw [hcl]; exact hlen)
  refine ⟨hcl, hcb, c2, c3, ?_⟩
  rw [hcl] at c4
  exact c4

/-- C16 at the bit strings 110 and 001. -/
theorem bitstring_fitness_range_witness :
    (∀ x ∈ ([1, 1, 0] : IntOrganism), x = 0 ∨ x = 1) ∧
    ([1, 1, 0] : IntOrganism).length < 2 ^ 63 ∧
    (IntOrganism.value [1, 1, 0] = (([1, 1, 0] : IntOrganism).count 1 : Int) ∧
    IntOrganism.value [1, 1, 0] = ([1, 1, 0] : IntOrganism).sum ∧
    0 ≤ IntOrganism.value [1, 1, 0] ∧
    IntOrganism.value [1, 1, 0] ≤ ([1, 1, 0] : IntOrganism).length ∧
    ∀ (B : IntOrganism) (g : Rng), (∀ x ∈ B, x = 0 ∨ x = 1) →
      ([1, 1, 0] : IntOrganism).length = B.length →
      (1 ≤ ([1, 1, 0] : IntOrganism).length →
        ∃ child g', IntOrganism.crossover [1, 1, 0] B g = .ok (child, g')) ∧
      ∀ child g', IntOrganism.crossover [1, 1, 0] B g = .ok (child, g') →
        child.length = ([1, 1, 0] : IntOrganism).length ∧ (∀ x ∈ child, x = 0 ∨ x = 1) ∧
        IntOrganism.value child = (child.count 1 : Int) ∧
        0 ≤ IntOrganism.value child ∧
        IntOrganism.value child ≤ ([1, 1, 0] : IntOrganism).length) :=
  ⟨by decide, by decide, bitstring_fitness_range [1, 1, 0] (by decide) (by decide)⟩

/-- C17: for a population (of a size below `maxLen`), a birth rate in `[0,1]` and any
script of random draws, `selectParents()` returns and leaves the rates alone; the
organism collection after the call is a permutation of the collection before it, so
the size, the total value `value()` and the fitness of `best()` are unchanged. -/
theorem selectParents_reorders [Platform] (S : SortAlg) (p : Population) (g : Rng)
    (hlen : p.organisms.length < maxLen) (hb : p.birthRate.InUnit) :
    ∃ (parents : Organisms) (p' : Population) (g' : Rng),
      p.selectParents S g = .ok (parents, p', g') ∧
      p'.organisms.Perm p.organisms ∧
      p'.organisms.length = p.organisms.length ∧
      p'.value = p.value ∧
      p'.best.map IntOrganism.value = p.best.map IntOrganism.value ∧
      p'.birthRate = p.birthRate ∧ p'.deathRate = p.deathRate := by
  obtain ⟨N, parents, g', _, _, _, hsel, hperm, _⟩ := selectParents_spec S p g hlen hb
  have hp : (parents ++ (S.sort ReverseSort.Less p.organisms).drop N).Perm p.organisms := by
    refine (List.Perm.append_right _ hperm).trans ?_
    rw [List.take_append_drop]
    exact S.perm _ _
  refine ⟨parents, _, g', hsel, hp, hp.length_eq, ?_, ?_, rfl, rfl⟩
  · rw [population_value_eq, population_value_eq]
    exact congrArg wrapInt ((hp.map IntOrganism.value).sum_eq)
  · exact best_value_perm hp _ _ _ _

/-- C17 at the seed population, sorted by insertion sort, for the draws 0, 0, 1, 2. -/
theorem selectParents_reorders_witness :
    seedPopulation.organisms.length < maxLen ∧ seedPopulation.birthRate.InUnit ∧
    ∃ (parents : Organisms) (p' : Population) (g' : Rng),
      seedPopulation.selectParents insertionSortAlg ⟨[0, 0, 1, 2]⟩ = .ok (parents, p', g') ∧
      p'.organisms.Perm seedPopulation.organisms ∧
      p'.organisms.length = seedPopulation.organisms.length ∧
      p'.value = seedPopulation.value ∧
      p'.best.map IntOrganism.value = seedPopulation.best.map IntOrganism.value ∧
      p'.birthRate = seedPopulation.birthRate ∧ p'.deathRate = seedPopulation.deathRate :=
  ⟨by decide, by decide,
    selectParents_reorders insertionSortAlg seedPopulation ⟨[0, 0, 1, 2]⟩ (by decide)
      (by decide)⟩

/-- C18: for every parent pool returned by `selectParents` (any population, any
rates, any sort, any draws), the pool has even length and the breeding loop of
`evolve` never reads outside it: it can stop only by a panic of `crossover`, and it
returns when the parents share one length `L >= 1`.  When it returns it has produced
exactly `len(parents) / 2` children, the `j`-th child being
`parents[2j].crossover(parents[2j+1])` on the `j`-th draw, passed through `mutate`
unchanged, since `o.mutate() = o` for every organism `o`. -/
theorem breeding_loop_pairs [Platform] (S : SortAlg) (p : Population) (g : Rng)
    (parents : Organisms) (p1 : Population) (g1 : Rng)
    (hsel : p.selectParents S g = .ok (parents, p1, g1)) :
    parents.length % 2 = 0 ∧
    breed parents g1 ≠ .error Fault.outOfRange ∧
    (∀ e, breed parents g1 = .error e → e = Fault.lengthMismatch ∨ e = Fault.intnArg) ∧
    (∀ L, 1 ≤ L → (∀ o ∈ parents, o.length = L) →
      ∃ children g2, breed parents g1 = .ok (children, g2)) ∧
    (∀ children g2, breed parents g1 = .ok (children, g2) →
      children.length = parents.length / 2 ∧
      g2 = ⟨g1.draws.drop children.length⟩ ∧
      ∀ j, j < children.length → ∃ a b c,
        parents[2 * j]? = some a ∧ parents[2 * j + 1]? = some b ∧
        IntOrganism.crossover a b ⟨g1.draws.drop j⟩ = .ok (c, ⟨g1.draws.drop (j + 1)⟩) ∧
        children[j]? = some c) ∧
    (∀ o : IntOrganism, IntOrganism.mutate o = o) := by
  have hev : parents.length % 2 = 0 := (selectParents_pool S p g hsel).1
  refine ⟨hev, ?_, ?_, ?_, ?_, fun o => rfl⟩
  · intro h
    rcases breed_fault parents g1 _ hev h with h' | h' <;> cases h'
  · intro e h
    exact breed_fault parents g1 e hev h
  · intro L hL hall
    exact breed_ok L hL parents g1 hev hall
  · intro children g2 h
    obtain ⟨h1, h2, h3⟩ := breed_spec parents g1 children g2 h
    exact ⟨by omega, h2, h3⟩

/-- C18 at the seed population, sorted by insertion sort, for the draws 0, 0, 1, 2, 1, 2. -/
theorem breeding_loop_pairs_witness :
    seedPopulation.selectParents insertionSortAlg ⟨[0, 0, 1, 2, 1, 2]⟩ =
      .ok ([[1, 1, 0], [1, 0, 0], [0, 0, 0], [1, 1, 1]],
        ⟨[[1, 1, 0], [1, 0, 0], [0, 0, 0], [1, 1, 1]], f32Half, f32Half⟩, ⟨[1, 2]⟩) ∧
    (([[1, 1, 0], [1, 0, 0], [0, 0, 0], [1, 1, 1]] : Organisms).length % 2 = 0 ∧
    breed [[1, 1, 0], [1, 0, 0], [0, 0, 0], [1, 1, 1]] ⟨[1, 2]⟩ ≠ .error Fault.outOfRange ∧
    (∀ e, breed [[1, 1, 0], [1, 0, 0], [0, 0, 0], [1, 1, 1]] ⟨[1, 2]⟩ = .error e →
      e = Fault.lengthMismatch ∨ e = Fault.intnArg) ∧
    (∀ L, 1 ≤ L →
      (∀ o ∈ ([[1, 1, 0], [1, 0, 0], [0, 0, 0], [1, 1, 1]] : Organisms), o.length = L) →
      ∃ children g2,
        breed [[1, 1, 0], [1, 0, 0], [0, 0, 0], [1, 1, 1]] ⟨[1, 2]⟩ = .ok (children, g2)) ∧
    (∀ children g2,
      breed [[1, 1, 0], [1, 0, 0], [0, 0, 0], [1, 1, 1]] ⟨[1, 2]⟩ = .ok (children, g2) →
      children.length = ([[1, 1, 0], [1, 0, 0], [0, 0, 0], [1, 1, 1]] : Organisms).length / 2 ∧
      g2 = ⟨(⟨[1, 2]⟩ : Rng).draws.drop children.length⟩ ∧
      ∀ j, j < children.length → ∃ a b c,
        ([[1, 1, 0], [1, 0, 0], [0, 0, 0], [1, 1, 1]] : Organisms)[2 * j]? = some a ∧
        ([[1, 1, 0], [1, 0, 0], [0, 0, 0], [1, 1, 1]] : Organisms)[2 * j + 1]? = some b ∧
        IntOrganism.crossover a b ⟨(⟨[1, 2]⟩ : Rng).draws.drop j⟩ =
          .ok (c, ⟨(⟨[1, 2]⟩ : Rng).draws.drop (j + 1)⟩) ∧
        children[j]? = some c) ∧
    (∀ o : IntOrganism, IntOrganism.mutate o = o)) :=
  ⟨by decide,
    breeding_loop_pairs insertionSortAlg seedPopulation ⟨[0, 0, 1, 2, 1, 2]⟩
      [[1, 1, 0], [1, 0, 0], [0, 0, 0], [1, 1, 1]]
      ⟨[[1, 1, 0], [1, 0, 0], [0, 0, 0], [1, 1, 1]], f32Half, f32Half⟩ ⟨[1, 2]⟩
      (by decide)⟩

/-- C19: in one generation on a population of size `P >= 1` in which selection
returns `parents`, every crossover of the breeding loop succeeds and `numToKill()`
is a count `k < P`, the generation returns, and the fitness of `best()` after it is
at least the fitness of `best()` before it, whatever the rates, the sort and the
random draws.  The bound `k < P` holds in particular for every death rate `d` with
`0 <= d < 1` (population size below `maxLen`). -/
theorem elitism [Platform] (S : SortAlg) (p : Population) (g : Rng)
    (parents children : Organisms) (p1 : Population) (g1 g2 : Rng) (k : Nat)
    (hpos : 1 ≤ p.organisms.length)
    (hsel : p.selectParents S g = .ok (parents, p1, g1))
    (hbreed : breed parents g1 = .ok (children, g2))
    (hk : p.numToKill = .ok (k : Int))
    (hkP : k < p.organisms.length ∨
      (p.organisms.length < maxLen ∧
        ∃ kd : Nat, p.deathRate = F32.finite false kd ∧
          F32.Representable kd ∧ kd < 2 ^ 149)) :
    k < p.organisms.length ∧
    ∃ (p2 : Population) (before after : Organism),
      (∀ i : Int, ∃ lines, p.generation S g i = .ok (p2, g2, lines)) ∧
      p.best = some before ∧ p2.best = some after ∧
      IntOrganism.value before ≤ IntOrganism.value after := by
  -- a death rate below one leaves a survivor
  have hkP : k < p.organisms.length := by
    rcases hkP with h | ⟨hlen, kd, hr, hrep, hlt⟩
    · exact h
    · have hd : F32.InUnit (F32.finite false kd) := ⟨by omega, Or.inl rfl⟩
      have h1 := numToKill_eq hlen hr hd
      rw [hk] at h1
      simp only [Except.ok.injEq] at h1
      have h2 : truncMul p.organisms.length kd < p.organisms.length :=
        truncMul_lt (by omega) hrep hlt
      omega
  refine ⟨hkP, ?_⟩
  have hbc := breedAndCull_of_ok S p g hsel hbreed hk (Nat.le_of_lt hkP)
  obtain ⟨hperm1, _, _⟩ := selectParents_perm S p g hsel
  -- the organisms before the generation, and the best of them
  have hne : p.organisms ≠ [] := by
    intro h
    rw [h] at hpos
    simp at hpos
  obtain ⟨x, hx, hxm, hxmax⟩ := best_spec p.organisms p.birthRate p.deathRate hne
  -- the ascending sort and the survivors
  have hsperm : (S.sort Organisms.Less p1.organisms).Perm p.organisms :=
    (S.perm _ _).trans hperm1
  have hsl : (S.sort Organisms.Less p1.organisms).length = p.organisms.length :=
    hsperm.length_eq
  have hsorted : List.Pairwise (fun a b => IntOrganism.value a ≤ IntOrganism.value b)
      (S.sort Organisms.Less p1.organisms) := by
    refine (S.sorted Organisms.Less p1.organisms strictWeak_less).imp ?_
    intro a b h
    simp only [Organisms.Less, decide_eq_false_iff_not] at h
    omega
  have hsurv : ∃ s ∈ (S.sort Organisms.Less p1.organisms).drop k,
      IntOrganism.value x ≤ IntOrganism.value s := by
    have hxs : x ∈ S.sort Organisms.Less p1.organisms := hsperm.mem_iff.mpr hxm
    rw [← List.take_append_drop k (S.sort Organisms.Less p1.organisms)] at hxs
    rcases List.mem_append.mp hxs with hin | hin
    · have hdne : (S.sort Organisms.Less p1.organisms).drop k ≠ [] := by
        intro h
        have := congrArg List.length h
        rw [List.length_drop, hsl] at this
        simp at this
        omega
      obtain ⟨s, hs⟩ := List.exists_mem_of_ne_nil _ hdne
      exact ⟨s, hs, hsorted.rel_of_mem_take_of_mem_drop hin hs⟩
    · exact ⟨x, hin, le_rfl⟩
  obtain ⟨s, hs, hxs⟩ := hsurv
  have hne2 : (S.sort Organisms.Less p1.organisms).drop k ++ children ≠ [] := by
    intro h
    have hs' : s ∈ (S.sort Organisms.Less p1.organisms).drop k ++ children :=
      List.mem_append_left _ hs
    rw [h] at hs'
    cases hs'
  obtain ⟨y, hy, _, hymax⟩ := best_spec _ p1.birthRate p1.deathRate hne2
  refine ⟨{ p1 with organisms := (S.sort Organisms.Less p1.organisms).drop k ++ children },
    x, y, ?_, hx, hy, ?_⟩
  · intro i
    obtain ⟨b, _, hrep⟩ := report_ok
      { p1 with organisms := (S.sort Organisms.Less p1.organisms).drop k ++ children } i hne2
    refine ⟨[Line.births children.length k,
      Line.iteration i
        ((S.sort Organisms.Less p1.organisms).drop k ++ children).length
        (Population.value
          { p1 with organisms := (S.sort Organisms.Less p1.organisms).drop k ++ children })
        (IntOrganism.value b)], ?_⟩
    simp only [Population.generation, hbc, bind, Except.bind, hrep]
    rfl
  · exact hxs.trans (hymax s (List.mem_append_left _ hs))

/-- C19 at the seed population, sorted by insertion sort, for the draws 0, 0, 1, 2, 1, 2. -/
theorem elitism_witness :
    1 ≤ seedPopulation.organisms.length ∧
    seedPopulation.selectParents insertionSortAlg ⟨[0, 0, 1, 2, 1, 2]⟩ =
      .ok ([[1, 1, 0], [1, 0, 0], [0, 0, 0], [1, 1, 1]],
        ⟨[[1, 1, 0], [1, 0, 0], [0, 0, 0], [1, 1, 1]], f32Half, f32Half⟩, ⟨[1, 2]⟩) ∧
    breed [[1, 1, 0], [1, 0, 0], [0, 0, 0], [1, 1, 1]] ⟨[1, 2]⟩ =
      .ok ([[1, 0, 0], [0, 0, 1]], ⟨[]⟩) ∧
    seedPopulation.numToKill = .ok ((2 : Nat) : Int) ∧
    seedPopulation.organisms.length < maxLen ∧
    seedPopulation.deathRate = F32.finite false (2 ^ 148) ∧
    F32.Representable (2 ^ 148) ∧ 2 ^ 148 < 2 ^ 149 ∧
    2 < seedPopulation.organisms.length ∧
    ∃ (p2 : Population) (before after : Organism),
      (∀ i : Int, ∃ lines,
        seedPopulation.generation insertionSortAlg ⟨[0, 0, 1, 2, 1, 2]⟩ i
          = .ok (p2, ⟨[]⟩, lines)) ∧
      seedPopulation.best = some before ∧ p2.best = some after ∧
      IntOrganism.value before ≤ IntOrganism.value after :=
  ⟨by decide, by decide, by decide, by decide, by decide, rfl, by decide, by decide,
    elitism insertionSortAlg seedPopulation ⟨[0, 0, 1, 2, 1, 2]⟩
      [[1, 1, 0], [1, 0, 0], [0, 0, 0], [1, 1, 1]] [[1, 0, 0], [0, 0, 1]]
      ⟨[[1, 1, 0], [1, 0, 0], [0, 0, 0], [1, 1, 1]], f32Half, f32Half⟩ ⟨[1, 2]⟩ ⟨[]⟩ 2
      (by decide) (by decide) (by decide) (by decide)
      (Or.inr ⟨by decide, 2 ^ 148, rfl, by decide, by decide⟩)⟩

/-- C20, as stated, fails when the total value overflows the 64-bit `int`.  (1) Three
organisms of fitness `2^62`, death rate 0.5: one is removed, `V = -2^62`,
`V' = -2^63`, and `V' * 3 >= V * 2` is false.  (2) Two organisms of fitness `2^62`,
death rate 0.5: all fitnesses are non-negative, one is removed, `V = -2^63`,
`V' = 2^62`, and `V' <= V` is false.  Both hold for every sort. -/
theorem culling_mean_counterexample :
    (overflowTrio.deathRate.InUnit ∧ overflowTrio.organisms.length = 3 ∧
      overflowTrio.value = -(2 ^ 62) ∧
      ∀ S : SortAlg, ∃ p', overflowTrio.killWeakestOrganisms S = .ok (1, p') ∧
        p'.value = -(2 ^ 63) ∧ ¬ (p'.value * 3 ≥ overflowTrio.value * (3 - 1))) ∧
    (overflowPair.deathRate.InUnit ∧ overflowPair.organisms.length = 2 ∧
      (∀ o ∈ overflowPair.organisms, 0 ≤ IntOrganism.value o) ∧
      overflowPair.value = -(2 ^ 63) ∧
      ∀ S : SortAlg, ∃ p', overflowPair.killWeakestOrganisms S = .ok (1, p') ∧
        p'.value = 2 ^ 62 ∧ ¬ (p'.value ≤ overflowPair.value)) := by
  refine ⟨⟨by decide, by decide, by decide, ?_⟩, by decide, by decide, by decide, by decide, ?_⟩
  · intro S
    obtain ⟨K, hK, _, hkill⟩ := killWeakestOrganisms_spec S overflowTrio (by decide) (by decide)
    have hK1 : overflowTrio.numToKill = .ok 1 := by decide
    rw [hK1] at hK
    have hK' : K = 1 := by
      simp only [Except.ok.injEq] at hK
      omega
    subst hK'
    have hs : S.sort Organisms.Less overflowTrio.organisms = List.replicate 3 [2 ^ 62] :=
      sort_replicate S Organisms.Less 3 [2 ^ 62]
    rw [hs] at hkill
    exact ⟨_, hkill, by decide, by decide⟩
  · intro S
    obtain ⟨K, hK, _, hkill⟩ := killWeakestOrganisms_spec S overflowPair (by decide) (by decide)
    have hK1 : overflowPair.numToKill = .ok 1 := by decide
    rw [hK1] at hK
    have hK' : K = 1 := by
      simp only [Except.ok.injEq] at hK
      omega
    subst hK'
    have hs : S.sort Organisms.Less overflowPair.organisms = List.replicate 2 [2 ^ 62] :=
      sort_replicate S Organisms.Less 2 [2 ^ 62]
    rw [hs] at hkill
    exact ⟨_, hkill, by decide, by decide⟩

/-- C20, amended: for a population of size `P` (below `maxLen`) whose fitnesses do
not overflow the 64-bit `int` when added (the sum of their absolute values is below
`2^63`) and a death rate in `[0,1]`, `killWeakestOrganisms()` removes `k` organisms,
the total value `V` before and `V'` after are the exact sums of the fitnesses, and
`V' * P >= V * (P - k)`; and `V' <= V` whenever all fitnesses are non-negative. -/
theorem culling_keeps_mean [Platform] (S : SortAlg) (p : Population)
    (hlen : p.organisms.length < maxLen) (hd : p.deathRate.InUnit)
    (hov : (p.organisms.map (fun o => (IntOrganism.value o).natAbs)).sum < 2 ^ 63) :
    ∃ (k : Nat) (p' : Population),
      p.numToKill = .ok (k : Int) ∧ p.killWeakestOrganisms S = .ok ((k : Int), p') ∧
      p.value = (p.organisms.map IntOrganism.value).sum ∧
      p'.value = (p'.organisms.map IntOrganism.value).sum ∧
      p'.value * (p.organisms.length : Int) ≥
        p.value * ((p.organisms.length : Int) - (k : Int)) ∧
      ((∀ o ∈ p.organisms, 0 ≤ IntOrganism.value o) → p'.value ≤ p.value) := by
  obtain ⟨K, hK, hle, hkill⟩ := killWeakestOrganisms_spec S p hlen hd
  have hperm := S.perm Organisms.Less p.organisms
  have hsl : (S.sort Organisms.Less p.organisms).length = p.organisms.length :=
    hperm.length_eq
  have hsorted : List.Pairwise (fun x y => IntOrganism.value x ≤ IntOrganism.value y)
      (S.sort Organisms.Less p.organisms) := by
    refine (S.sorted Organisms.Less p.organisms strictWeak_less).imp ?_
    intro x y h
    simp only [Organisms.Less, decide_eq_false_iff_not] at h
    omega
  have hsplit := List.take_append_drop K (S.sort Organisms.Less p.organisms)
  generalize hlow : (S.sort Organisms.Less p.organisms).take K = low at hsplit
  generalize hhigh : (S.sort Organisms.Less p.organisms).drop K = high at hsplit hkill
  have hlowlen : low.length = K := by
    rw [← hlow, List.length_take, hsl]; omega
  have hhighlen : high.length = p.organisms.length - K := by
    rw [← hhigh, List.length_drop, hsl]
  have hrel : ∀ r ∈ low, ∀ s ∈ high, IntOrganism.value r ≤ IntOrganism.value s := by
    intro r hr s hs
    rw [← hlow] at hr
    rw [← hhigh] at hs
    exact hsorted.rel_of_mem_take_of_mem_drop hr hs
  have hp2 : (low ++ high).Perm p.organisms := by rw [hsplit]; exact hperm
  -- the sums
  have hsum : (p.organisms.map IntOrganism.value).sum
      = (low.map IntOrganism.value).sum + (high.map IntOrganism.value).sum := by
    rw [← (hp2.map IntOrganism.value).sum_eq, List.map_append, List.sum_append]
  have habs : (p.organisms.map (fun o => (IntOrganism.value o).natAbs)).sum
      = (low.map (fun o => (IntOrganism.value o).natAbs)).sum
        + (high.map (fun o => (IntOrganism.value o).natAbs)).sum := by
    rw [← (hp2.map (fun o => (IntOrganism.value o).natAbs)).sum_eq, List.map_append,
      List.sum_append]
  have ha : -(((p.organisms.map (fun o => (IntOrganism.value o).natAbs)).sum : Nat) : Int)
        ≤ (p.organisms.map IntOrganism.value).sum ∧
      (p.organisms.map IntOrganism.value).sum
        ≤ (((p.organisms.map (fun o => (IntOrganism.value o).natAbs)).sum : Nat) : Int) :=
    abs_sum_le IntOrganism.value p.organisms
  have hb : -(((high.map (fun o => (IntOrganism.value o).natAbs)).sum : Nat) : Int)
        ≤ (high.map IntOrganism.value).sum ∧
      (high.map IntOrganism.value).sum
        ≤ (((high.map (fun o => (IntOrganism.value o).natAbs)).sum : Nat) : Int) :=
    abs_sum_le IntOrganism.value high
  obtain ⟨a1, a2⟩ := ha
  obtain ⟨b1, b2⟩ := hb
  have hov' : (((p.organisms.map (fun o => (IntOrganism.value o).natAbs)).sum : Nat) : Int)
      < 2 ^ 63 := by exact_mod_cast hov
  have hV : p.value = (p.organisms.map IntOrganism.value).sum := by
    rw [population_value_eq]
    exact wrapInt_of_range (by omega) (by omega)
  have hV' : Population.value { p with organisms := high }
      = (high.map IntOrganism.value).sum := by
    rw [population_value_eq]
    have : (((high.map (fun o => (IntOrganism.value o).natAbs)).sum : Nat) : Int)
        ≤ (((p.organisms.map (fun o => (IntOrganism.value o).natAbs)).sum : Nat) : Int) := by
      rw [habs, Nat.cast_add]; omega
    show wrapInt ((high.map IntOrganism.value).sum) = _
    exact wrapInt_of_range (by omega) (by omega)
  refine ⟨K, { p with organisms := high }, hK, hkill, hV, hV', ?_, ?_⟩
  · rw [hV, hV', hsum]
    have hcross := low_sum_mul_le IntOrganism.value low high hrel
    rw [hlowlen, hhighlen] at hcross
    have hm : ((p.organisms.length - K : Nat) : Int) = (p.organisms.length : Int) - K := by
      omega
    rw [hm] at hcross
    nlinarith
  · intro hnn
    rw [hV, hV', hsum]
    have : 0 ≤ (low.map IntOrganism.value).sum := by
      apply sum_nonneg_of
      intro o ho
      exact hnn o (hp2.mem_iff.mp (List.mem_append_left _ ho))
    omega

/-- C20, amended, at the seed population, sorted by insertion sort. -/
theorem culling_keeps_mean_witness :
    seedPopulation.organisms.length < maxLen ∧ seedPopulation.deathRate.InUnit ∧
    (seedPopulation.organisms.map (fun o => (IntOrganism.value o).natAbs)).sum < 2 ^ 63 ∧
    ∃ (k : Nat) (p' : Population),
      seedPopulation.numToKill = .ok (k : Int) ∧
      seedPopulation.killWeakestOrganisms insertionSortAlg = .ok ((k : Int), p') ∧
      seedPopulation.value = (seedPopulation.organisms.map IntOrganism.value).sum ∧
      p'.value = (p'.organisms.map IntOrganism.value).sum ∧
      p'.value * (seedPopulation.organisms.length : Int) ≥
        seedPopulation.value * ((seedPopulation.organisms.length : Int) - (k : Int)) ∧
      ((∀ o ∈ seedPopulation.organisms, 0 ≤ IntOrganism.value o) →
        p'.value ≤ seedPopulation.value) :=
  ⟨by decide, by decide, by decide,
    culling_keeps_mean insertionSortAlg seedPopulation (by decide) (by decide) (by decide)⟩

end Evolution
